import Mathlib

/-!
# Verification of the `my-life-sim` simulation engine

A shallow embedding, in exact arithmetic, of the agent-based dissipation
simulator (`src/simulationEnginPre.ts` and the sweep orchestration in
`src/App.tsx`).  JavaScript floating-point numbers are idealised as exact
rationals; positions and headings of life-mode agents involve
`cos`/`sin` of multiples of `π/4`, so they live in the computable
quadratic extension `ℚ[√2]` (the `Q2` type below).  Bit-level PRNG code
(`mulberry32`) is modelled over `ℕ` with explicit reductions modulo `2^32`.
-/

namespace MyLifeSim

/-! ## The computable field fragment `ℚ[√2]`

`Q2` represents the real number `a + b·√2`.  The engine only ever adds,
subtracts, rescales, floors and reduces such numbers, so only those
operations are provided.  `toReal` is the semantic interpretation used in
proofs.
-/

structure Q2 where
  a : ℚ
  b : ℚ
deriving DecidableEq, Repr

namespace Q2

def ofRat (q : ℚ) : Q2 := ⟨q, 0⟩

instance : Zero Q2 := ⟨ofRat 0⟩
instance : One Q2 := ⟨ofRat 1⟩
instance : Add Q2 := ⟨fun x y => ⟨x.a + y.a, x.b + y.b⟩⟩
instance : Neg Q2 := ⟨fun x => ⟨-x.a, -x.b⟩⟩
instance : Sub Q2 := ⟨fun x y => ⟨x.a - y.a, x.b - y.b⟩⟩

/-- Rescale by a rational factor (used for `* 2`, `/ N` and similar). -/
def scale (q : ℚ) (x : Q2) : Q2 := ⟨q * x.a, q * x.b⟩

/-- The real number represented by a `Q2` value. -/
noncomputable def toReal (x : Q2) : ℝ := (x.a : ℝ) + (x.b : ℝ) * Real.sqrt 2

@[simp] theorem toReal_mk (a b : ℚ) :
    toReal ⟨a, b⟩ = (a : ℝ) + (b : ℝ) * Real.sqrt 2 := rfl

@[simp] theorem toReal_ofRat (q : ℚ) : toReal (ofRat q) = (q : ℝ) := by
  simp [ofRat, toReal]

@[simp] theorem toReal_zero : toReal 0 = 0 := by
  show toReal (ofRat 0) = 0
  simp

@[simp] theorem toReal_one : toReal 1 = 1 := by
  show toReal (ofRat 1) = 1
  simp

@[simp] theorem toReal_add (x y : Q2) : toReal (x + y) = toReal x + toReal y := by
  show toReal ⟨x.a + y.a, x.b + y.b⟩ = _
  push_cast [toReal]
  ring

@[simp] theorem toReal_neg (x : Q2) : toReal (-x) = -toReal x := by
  show toReal ⟨-x.a, -x.b⟩ = _
  push_cast [toReal]
  ring

@[simp] theorem toReal_sub (x y : Q2) : toReal (x - y) = toReal x - toReal y := by
  show toReal ⟨x.a - y.a, x.b - y.b⟩ = _
  push_cast [toReal]
  ring

@[simp] theorem toReal_scale (q : ℚ) (x : Q2) :
    toReal (scale q x) = (q : ℝ) * toReal x := by
  push_cast [toReal, scale]
  ring

theorem sqrt_two_pos : (0 : ℝ) < Real.sqrt 2 := by
  have := Real.sqrt_pos.2 (by norm_num : (0:ℝ) < 2)
  exact this

theorem sq_sqrt_two : Real.sqrt 2 ^ 2 = 2 := Real.sq_sqrt (by norm_num)

/-- Decidable sign test: `nonnegB x = true` iff the represented real
number `x.a + x.b·√2` is nonnegative.  Decided by comparing squares. -/
def nonnegB (x : Q2) : Bool :=
  if 0 ≤ x.a then
    if 0 ≤ x.b then true else decide (2 * x.b ^ 2 ≤ x.a ^ 2)
  else
    if 0 ≤ x.b then decide (x.a ^ 2 ≤ 2 * x.b ^ 2) else false

theorem nonnegB_iff (x : Q2) : nonnegB x = true ↔ 0 ≤ toReal x := by
  obtain ⟨a, b⟩ := x
  unfold nonnegB toReal
  have hs2 : Real.sqrt 2 ^ 2 = 2 := sq_sqrt_two
  have hspos : (0:ℝ) < Real.sqrt 2 := sqrt_two_pos
  by_cases ha : 0 ≤ a <;> by_cases hb : 0 ≤ b <;>
      simp only [ha, hb, if_true, if_false, decide_eq_true_eq]
  · constructor
    · intro _
      have ha' : (0:ℝ) ≤ (a:ℚ) := by exact_mod_cast ha
      have hb' : (0:ℝ) ≤ (b:ℚ) := by exact_mod_cast hb
      positivity
    · intro _; trivial
  · -- a ≥ 0, b < 0 : x ≥ 0 ↔ 2 b² ≤ a²
    have ha' : (0:ℝ) ≤ (a:ℝ) := by exact_mod_cast ha
    have hb' : (b:ℝ) < 0 := by exact_mod_cast (lt_of_not_le hb)
    have hk : (0:ℝ) < (a:ℝ) - (b:ℝ) * Real.sqrt 2 := by nlinarith
    have hexp : ((a:ℝ) + (b:ℝ) * Real.sqrt 2) * ((a:ℝ) - (b:ℝ) * Real.sqrt 2)
        = (a:ℝ) ^ 2 - 2 * (b:ℝ) ^ 2 := by
      have : ((a:ℝ) + (b:ℝ) * Real.sqrt 2) * ((a:ℝ) - (b:ℝ) * Real.sqrt 2)
          = (a:ℝ) ^ 2 - (b:ℝ) ^ 2 * Real.sqrt 2 ^ 2 := by ring
      rw [this, hs2]; ring
    constructor
    · intro h
      by_contra hneg
      push_neg at hneg
      have h' : (2:ℝ) * (b:ℝ) ^ 2 ≤ (a:ℝ) ^ 2 := by exact_mod_cast h
      have hp : ((a:ℝ) + (b:ℝ) * Real.sqrt 2) * ((a:ℝ) - (b:ℝ) * Real.sqrt 2) < 0 :=
        mul_neg_of_neg_of_pos hneg hk
      rw [hexp] at hp
      linarith
    · intro h
      have hp : 0 ≤ (a:ℝ) ^ 2 - 2 * (b:ℝ) ^ 2 := by
        rw [← hexp]; exact mul_nonneg h (le_of_lt hk)
      have : (2:ℝ) * (b:ℝ) ^ 2 ≤ (a:ℝ) ^ 2 := by linarith
      exact_mod_cast this
  · -- a < 0, b ≥ 0 : x ≥ 0 ↔ a² ≤ 2 b²
    have ha' : (a:ℝ) < 0 := by exact_mod_cast (lt_of_not_le ha)
    have hb' : (0:ℝ) ≤ (b:ℝ) := by exact_mod_cast hb
    have hk : (0:ℝ) < (b:ℝ) * Real.sqrt 2 - (a:ℝ) := by nlinarith
    have hexp : ((a:ℝ) + (b:ℝ) * Real.sqrt 2) * ((b:ℝ) * Real.sqrt 2 - (a:ℝ))
        = 2 * (b:ℝ) ^ 2 - (a:ℝ) ^ 2 := by
      have : ((a:ℝ) + (b:ℝ) * Real.sqrt 2) * ((b:ℝ) * Real.sqrt 2 - (a:ℝ))
          = (b:ℝ) ^ 2 * Real.sqrt 2 ^ 2 - (a:ℝ) ^ 2 := by ring
      rw [this, hs2]; ring
    constructor
    · intro h
      by_contra hneg
      push_neg at hneg
      have h' : (a:ℝ) ^ 2 ≤ 2 * (b:ℝ) ^ 2 := by exact_mod_cast h
      have hp : ((a:ℝ) + (b:ℝ) * Real.sqrt 2) * ((b:ℝ) * Real.sqrt 2 - (a:ℝ)) < 0 :=
        mul_neg_of_neg_of_pos hneg hk
      rw [hexp] at hp
      linarith
    · intro h
      have hp : 0 ≤ 2 * (b:ℝ) ^ 2 - (a:ℝ) ^ 2 := by
        rw [← hexp]; exact mul_nonneg h (le_of_lt hk)
      have : (a:ℝ) ^ 2 ≤ 2 * (b:ℝ) ^ 2 := by linarith
      exact_mod_cast this
  · have ha' : (a:ℝ) < 0 := by exact_mod_cast (lt_of_not_le ha)
    have hb' : (b:ℝ) < 0 := by exact_mod_cast (lt_of_not_le hb)
    constructor
    · intro h; exact absurd h (by simp)
    · intro h; nlinarith

end Q2

/-- `⌊b·√2⌋`, computed exactly.  For `b = p/q` with `p ≥ 0`,
`b·√2 = √(2p²)/q` and the floor is `Nat.sqrt (2p²) / q`; for `p < 0` the
number `√(2p²)/q` is irrational, so `⌊-√(2p²)/q⌋ = -(Nat.sqrt (2p²)/q) - 1`. -/
def ratSqrt2Floor (b : ℚ) : ℤ :=
  if 0 ≤ b.num then ((Nat.sqrt (2 * b.num.natAbs ^ 2) / b.den : ℕ) : ℤ)
  else -((Nat.sqrt (2 * b.num.natAbs ^ 2) / b.den : ℕ) : ℤ) - 1

theorem sqrt_two_mul_sq (p : ℕ) :
    Real.sqrt (2 * (p : ℝ) ^ 2) = (p : ℝ) * Real.sqrt 2 := by
  rw [mul_comm, Real.sqrt_mul (by positivity) 2]
  rw [Real.sqrt_sq (by positivity : (0:ℝ) ≤ (p:ℝ))]

theorem nat_sqrt_real_bounds (m : ℕ) :
    (Nat.sqrt m : ℝ) ≤ Real.sqrt m ∧ Real.sqrt m < (Nat.sqrt m : ℝ) + 1 := by
  constructor
  · have h : ((Nat.sqrt m : ℝ)) ^ 2 ≤ (m : ℝ) := by exact_mod_cast Nat.sqrt_le' m
    have := Real.sqrt_le_sqrt h
    rwa [Real.sqrt_sq (by positivity)] at this
  · have h : (m : ℝ) < ((Nat.sqrt m : ℝ) + 1) ^ 2 := by exact_mod_cast Nat.lt_succ_sqrt' m
    have h2 := Real.sqrt_lt_sqrt (by positivity) h
    rwa [Real.sqrt_sq (by positivity)] at h2

theorem sqrt_div_nat_bounds (m q : ℕ) (hq : 0 < q) :
    ((Nat.sqrt m / q : ℕ) : ℝ) ≤ Real.sqrt m / q ∧
    Real.sqrt m / q < ((Nat.sqrt m / q : ℕ) : ℝ) + 1 := by
  have hqR : (0:ℝ) < (q : ℝ) := by exact_mod_cast hq
  have hb := nat_sqrt_real_bounds m
  have hsq : ((Nat.sqrt m / q : ℕ) : ℝ) * q ≤ (Nat.sqrt m : ℝ) := by
    exact_mod_cast Nat.div_mul_le_self (Nat.sqrt m) q
  have hstep : Nat.sqrt m < (Nat.sqrt m / q + 1) * q := by
    have h1 := Nat.div_add_mod (Nat.sqrt m) q
    have h2 := Nat.mod_lt (Nat.sqrt m) hq
    calc Nat.sqrt m = q * (Nat.sqrt m / q) + Nat.sqrt m % q := h1.symm
      _ < q * (Nat.sqrt m / q) + q := Nat.add_lt_add_left h2 _
      _ = (Nat.sqrt m / q + 1) * q := by ring
  have hsq2 : (Nat.sqrt m : ℝ) + 1 ≤ (((Nat.sqrt m / q : ℕ) : ℝ) + 1) * q := by
    have : Nat.sqrt m + 1 ≤ (Nat.sqrt m / q + 1) * q := Nat.succ_le_of_lt hstep
    exact_mod_cast this
  constructor
  · rw [le_div_iff hqR]
    exact le_trans hsq hb.1
  · rw [div_lt_iff hqR]
    calc Real.sqrt m < (Nat.sqrt m : ℝ) + 1 := hb.2
      _ ≤ (((Nat.sqrt m / q : ℕ) : ℝ) + 1) * q := hsq2

theorem sqrt_div_nat_strict (m q : ℕ) (hq : 0 < q) (hirr : Irrational (Real.sqrt m)) :
    ((Nat.sqrt m / q : ℕ) : ℝ) < Real.sqrt m / q := by
  have hqR : (0:ℝ) < (q : ℝ) := by exact_mod_cast hq
  have hb := nat_sqrt_real_bounds m
  have hsq : ((Nat.sqrt m / q : ℕ) : ℝ) * q ≤ (Nat.sqrt m : ℝ) := by
    exact_mod_cast Nat.div_mul_le_self (Nat.sqrt m) q
  have hle : ((Nat.sqrt m / q : ℕ) : ℝ) * q ≤ Real.sqrt m := le_trans hsq hb.1
  have hne : ((Nat.sqrt m / q : ℕ) : ℝ) * q ≠ Real.sqrt m := by
    intro h
    refine hirr.ne_int (((Nat.sqrt m / q) * q : ℕ) : ℤ) ?_
    rw [← h, Int.cast_natCast, Nat.cast_mul]
  have hlt : ((Nat.sqrt m / q : ℕ) : ℝ) * q < Real.sqrt m := lt_of_le_of_ne hle hne
  rw [lt_div_iff hqR]
  exact hlt

theorem ratSqrt2Floor_bounds (b : ℚ) :
    (ratSqrt2Floor b : ℝ) ≤ (b : ℝ) * Real.sqrt 2 ∧
    (b : ℝ) * Real.sqrt 2 < (ratSqrt2Floor b : ℝ) + 1 := by
  have hq : 0 < b.den := b.pos
  have hcast : (b : ℝ) = (b.num : ℝ) / (b.den : ℝ) := by
    rw [Rat.cast_def]
  have hm : Real.sqrt ((2 * b.num.natAbs ^ 2 : ℕ) : ℝ)
      = (b.num.natAbs : ℝ) * Real.sqrt 2 := by
    push_cast
    exact sqrt_two_mul_sq b.num.natAbs
  by_cases hbn : 0 ≤ b.num
  · have hnum : (b.num : ℝ) = (b.num.natAbs : ℝ) := by
      have h := Int.natAbs_of_nonneg hbn
      conv_lhs => rw [← h]
      rw [Int.cast_natCast]
    have hval : (b : ℝ) * Real.sqrt 2
        = Real.sqrt ((2 * b.num.natAbs ^ 2 : ℕ) : ℝ) / (b.den : ℝ) := by
      rw [hcast, hnum, hm]
      ring
    have hb2 := sqrt_div_nat_bounds (2 * b.num.natAbs ^ 2) b.den hq
    rw [ratSqrt2Floor, if_pos hbn, hval]
    constructor
    · exact_mod_cast hb2.1
    · exact_mod_cast hb2.2
  · have hbn' : b.num < 0 := lt_of_not_le hbn
    have hp0 : b.num.natAbs ≠ 0 := by
      simp only [ne_eq, Int.natAbs_eq_zero]
      omega
    have hnum : (b.num : ℝ) = -(b.num.natAbs : ℝ) := by
      have hz : b.num = -(b.num.natAbs : ℤ) := by omega
      conv_lhs => rw [hz]
      rw [Int.cast_neg, Int.cast_natCast]
    have hval : (b : ℝ) * Real.sqrt 2
        = -(Real.sqrt ((2 * b.num.natAbs ^ 2 : ℕ) : ℝ) / (b.den : ℝ)) := by
      rw [hcast, hnum, hm]
      ring
    have hirr : Irrational (Real.sqrt ((2 * b.num.natAbs ^ 2 : ℕ) : ℝ)) := by
      rw [hm]
      have h1 : Irrational (((b.num.natAbs : ℚ) : ℝ) * Real.sqrt 2) :=
        irrational_sqrt_two.rat_mul (by exact_mod_cast hp0)
      simpa using h1
    have hb2 := sqrt_div_nat_bounds (2 * b.num.natAbs ^ 2) b.den hq
    have hb3 := sqrt_div_nat_strict (2 * b.num.natAbs ^ 2) b.den hq hirr
    rw [ratSqrt2Floor, if_neg hbn, hval]
    simp only [Int.cast_sub, Int.cast_neg, Int.cast_natCast, Int.cast_one]
    constructor
    · linarith [hb2.2]
    · linarith [hb3]

namespace Q2

/-- Exact floor of a `Q2` number: start from `⌊a⌋ + ⌊b√2⌋` (which under- or
exactly estimates by at most one) and correct with the decidable sign test. -/
def floor (x : Q2) : ℤ :=
  let c : ℤ := ⌊x.a⌋ + ratSqrt2Floor x.b
  if nonnegB (x - ofRat ((c + 1 : ℤ) : ℚ)) then c + 1 else c

theorem floor_bounds (x : Q2) :
    (floor x : ℝ) ≤ toReal x ∧ toReal x < (floor x : ℝ) + 1 := by
  obtain ⟨a, b⟩ := x
  set c : ℤ := ⌊a⌋ + ratSqrt2Floor b with hc
  have hfa : ((⌊a⌋ : ℤ) : ℝ) ≤ (a : ℝ) := by
    have := Int.floor_le (a : ℝ)
    rwa [Rat.floor_cast] at this
  have hfa2 : (a : ℝ) < ((⌊a⌋ : ℤ) : ℝ) + 1 := by
    have := Int.lt_floor_add_one (a : ℝ)
    rwa [Rat.floor_cast] at this
  have hfb := ratSqrt2Floor_bounds b
  have hlow : (c : ℝ) ≤ toReal ⟨a, b⟩ := by
    rw [toReal_mk, hc]
    push_cast
    linarith [hfb.1]
  have hhigh : toReal ⟨a, b⟩ < (c : ℝ) + 2 := by
    rw [toReal_mk, hc]
    push_cast
    linarith [hfb.2]
  rw [floor]
  by_cases htest : nonnegB (⟨a, b⟩ - ofRat ((c + 1 : ℤ) : ℚ)) = true
  · have h0 := (nonnegB_iff _).1 htest
    rw [toReal_sub, toReal_ofRat] at h0
    push_cast at h0
    simp only [hc] at *
    rw [if_pos htest]
    push_cast at hlow hhigh h0 ⊢
    constructor
    · linarith
    · linarith
  · have h0 : ¬ (0 ≤ toReal (⟨a, b⟩ - ofRat ((c + 1 : ℤ) : ℚ))) := by
      intro hcontra
      exact htest ((nonnegB_iff _).2 hcontra)
    rw [toReal_sub, toReal_ofRat] at h0
    push_neg at h0
    push_cast at h0
    simp only [hc] at *
    rw [if_neg htest]
    push_cast at hlow hhigh h0 ⊢
    constructor
    · linarith
    · linarith

theorem floor_le (x : Q2) : (floor x : ℝ) ≤ toReal x := (floor_bounds x).1

theorem lt_floor_add_one (x : Q2) : toReal x < (floor x : ℝ) + 1 := (floor_bounds x).2

theorem floor_nonneg {x : Q2} (h : 0 ≤ toReal x) : 0 ≤ floor x := by
  have h2 := lt_floor_add_one x
  have h3 : (-1 : ℝ) < (floor x : ℝ) := by linarith
  have h4 : (-1 : ℤ) < floor x := by exact_mod_cast h3
  omega

theorem floor_lt_nat {x : Q2} {n : ℕ} (h : toReal x < n) : floor x < (n : ℤ) := by
  have h1 := floor_le x
  have : (floor x : ℝ) < (n : ℝ) := lt_of_le_of_lt h1 h
  exact_mod_cast this

/-- JS truncation toward zero (`Math.trunc` / the implicit truncation in the
float remainder operator). -/
def trunc (x : Q2) : ℤ := if nonnegB x then floor x else -(floor (-x))

/-- Division of a `Q2` value by a natural number. -/
def divNat (x : Q2) (n : ℕ) : Q2 := ⟨x.a / n, x.b / n⟩

theorem toReal_divNat (x : Q2) (n : ℕ) (hn : 0 < n) :
    toReal (divNat x n) = toReal x / n := by
  obtain ⟨a, b⟩ := x
  have hn' : ((n:ℕ) : ℝ) ≠ 0 := by positivity
  rw [divNat, toReal_mk, toReal_mk]
  push_cast
  field_simp

/-- The JS float remainder `v % n` for `v : Q2`, `n : ℕ`:
`v - n * trunc (v / n)`. -/
def jsMod (v : Q2) (n : ℕ) : Q2 :=
  v - ofRat ((n : ℚ) * ((trunc (divNat v n) : ℤ) : ℚ))

theorem jsMod_bounds (v : Q2) (n : ℕ) (hn : 0 < n) (hv : 0 ≤ toReal v) :
    0 ≤ toReal (jsMod v n) ∧ toReal (jsMod v n) < n := by
  have hnR : (0:ℝ) < (n : ℝ) := by exact_mod_cast hn
  have hdiv : toReal (divNat v n) = toReal v / n := toReal_divNat v n hn
  have hdnn : 0 ≤ toReal (divNat v n) := by
    rw [hdiv]; positivity
  have htr : trunc (divNat v n) = floor (divNat v n) := by
    rw [trunc, if_pos ((nonnegB_iff _).2 hdnn)]
  have hfb := floor_bounds (divNat v n)
  rw [hdiv] at hfb
  have hval : toReal (jsMod v n) = toReal v - (n : ℝ) * (floor (divNat v n) : ℝ) := by
    rw [jsMod, toReal_sub, toReal_ofRat, htr]
    push_cast
    ring
  constructor
  · rw [hval]
    have h1 : (n:ℝ) * (floor (divNat v n) : ℝ) ≤ (n:ℝ) * (toReal v / n) :=
      mul_le_mul_of_nonneg_left hfb.1 (le_of_lt hnR)
    have h2 : (n:ℝ) * (toReal v / n) = toReal v := by field_simp
    linarith
  · rw [hval]
    have h1 : (n:ℝ) * (toReal v / n) < (n:ℝ) * ((floor (divNat v n) : ℝ) + 1) :=
      mul_lt_mul_of_pos_left hfb.2 hnR
    have h2 : (n:ℝ) * (toReal v / n) = toReal v := by field_simp
    nlinarith

end Q2

/-! ## Deterministic PRNG: `mulberry32`

One call of the closure returned by `mulberry32(a)`.  JS numbers holding
32-bit patterns are modelled as naturals; every ToInt32/ToUint32 coercion
performed by the JS bitwise operators (`^`, `|`, `>>>`, `Math.imul`) is an
explicit `% 2^32`.  The closure state `a` itself is a float accumulating
`+= 0x6d2b79f5` exactly, so it is kept unreduced.  Returns the new closure
state and the produced value `t / 2^32 ∈ [0, 1)`.
-/
def mulberryStep (a : ℕ) : ℕ × ℚ :=
  let a' := a + 0x6d2b79f5
  let t0 := a' % 4294967296
  let t1 := ((t0 ^^^ (t0 >>> 15)) * (t0 ||| 1)) % 4294967296
  let t2 := t1 ^^^ ((t1 + ((t1 ^^^ (t1 >>> 7)) * (t1 ||| 61)) % 4294967296) % 4294967296)
  let r := (t2 ^^^ (t2 >>> 14)) % 4294967296
  (a', (r : ℚ) / 4294967296)

theorem mulberryStep_val_bounds (a : ℕ) :
    0 ≤ (mulberryStep a).2 ∧ (mulberryStep a).2 < 1 := by
  have key : ∀ n : ℕ, 0 ≤ ((n % 4294967296 : ℕ) : ℚ) / 4294967296 ∧
      ((n % 4294967296 : ℕ) : ℚ) / 4294967296 < 1 := by
    intro n
    constructor
    · positivity
    · rw [div_lt_one (by norm_num)]
      exact_mod_cast Nat.mod_lt n (by norm_num)
  exact key _

/-! ## Data model

Direct translations of the TypeScript types.  `Agent.x`, `Agent.y` and the
heading `(vx, vy)` live in `Q2` because life-mode movement adds
`cos`/`sin` of multiples of `π/4`; all other numbers are exact rationals.
-/

inductive Mode
  | off
  | random
  | life
deriving DecidableEq, Repr

structure UserConfig where
  gridSize : ℕ
  inflowRate : ℚ
  consumptionRate : ℚ
  diffusionSpeed : ℚ
  diffusionCap : ℚ
  initialAgents : ℕ
  initialSpread : ℚ
  seed : ℕ
deriving DecidableEq, Repr

structure Agent where
  x : Q2
  y : Q2
  energy : ℚ
  vx : Q2
  vy : Q2
deriving DecidableEq, Repr

/-- The mutable instance fields of `SimulationEngine`.  `rngRandom` is the
closure state of the engine's `mulberry32` stream. -/
structure EngineState where
  grid : List ℚ
  agents : List Agent
  initialStock : ℚ
  totalInflow : ℚ
  cumulativeHeat : ℚ
  stepHeatDiff : ℚ
  stepHeatAct : ℚ
  seed : ℕ
  rngRandom : ℕ
deriving DecidableEq, Repr

structure EngineStepStats where
  deltaHeat : ℚ
  totalHeat : ℚ
  heatDiff : ℚ
  heatAct : ℚ
  agentCount : ℕ
  energyError : ℚ
deriving DecidableEq, Repr

structure MasterState where
  grid : List ℚ
  agents : List Agent
deriving DecidableEq, Repr

/-! ### Grid access

`Float32Array` indexing with a (possibly signed) computed index.  All
accesses performed by the engine are in bounds under the invariants proved
below; the out-of-range conventions (reads give `0`, writes are dropped,
matching the dropped writes of JS typed arrays) only totalise the
definitions. -/

def gridGet (g : List ℚ) (i : ℤ) : ℚ :=
  if 0 ≤ i then g.getD i.toNat 0 else 0

def gridSet (g : List ℚ) (i : ℤ) (v : ℚ) : List ℚ :=
  if 0 ≤ i then g.set i.toNat v else g

/-- Sequential in-place mutation of a list of items together with shared
state: the functional rendering of the engine's `for` loops over
`this.agents` that mutate `this.grid` and the heat counters as they go. -/
def mapAccum (f : σ → α → σ × β) : σ → List α → σ × List β
  | s, [] => (s, [])
  | s, a :: as =>
    let r := f s a
    let rest := mapAccum f r.1 as
    (rest.1, r.2 :: rest.2)

/-! ## Master state generation and import -/

/-- The agent-generation loop of `generateMasterState`: two `localRng()`
draws per agent, in program order. -/
def genAgents (size : ℕ) : ℕ → ℕ → List Agent × ℕ
  | 0, st => ([], st)
  | n + 1, st =>
    let r1 := mulberryStep st
    let r2 := mulberryStep r1.1
    let a : Agent := { x := Q2.ofRat (r1.2 * size), y := Q2.ofRat (r2.2 * size),
                       energy := 2, vx := 0, vy := 0 }
    let rest := genAgents size n r2.1
    (a :: rest.1, rest.2)

/-- `generateMasterState`.  The grid test `dist < config.initialSpread`
with `dist = √((x-c)² + (y-c)²)` is translated to the equivalent exact
test `0 < initialSpread ∧ (x-c)² + (y-c)² < initialSpread²`. -/
def generateMasterState (config : UserConfig) : MasterState :=
  let size := config.gridSize
  let center : ℚ := (size : ℚ) / 2
  let grid := (List.range (size * size)).map (fun i =>
    let x : ℚ := ((i % size : ℕ) : ℚ)
    let y : ℚ := ((i / size : ℕ) : ℚ)
    let dist2 := (x - center) ^ 2 + (y - center) ^ 2
    if 0 < config.initialSpread ∧ dist2 < config.initialSpread ^ 2 then (15 : ℚ) else 1)
  { grid := grid, agents := (genAgents size config.initialAgents config.seed).1 }

def getTotalInternalEnergy (s : EngineState) : ℚ :=
  s.grid.sum + (s.agents.map Agent.energy).sum

/-- `importState`.  The deep copies (`new Float32Array(state.grid)`,
`state.agents.map(a => ({...a}))`) are identities in this pure model;
`seed` is the engine's constructor seed. -/
def importState (seed : ℕ) (state : MasterState) (mode : Mode) : EngineState :=
  let agents := if mode = Mode.off then [] else state.agents
  let modeSalt : ℕ := if mode = Mode.life then 777 else 999
  let s : EngineState :=
    { grid := state.grid
      agents := agents
      initialStock := 0
      totalInflow := 0
      cumulativeHeat := 0
      stepHeatDiff := 0
      stepHeatAct := 0
      seed := seed
      rngRandom := seed + modeSalt }
  { s with initialStock := getTotalInternalEnergy s }

/-! ## Diffusion -/

def clampNonNeg (x : ℚ) : ℚ := if x < 0 then 0 else x

/-- The row-major scan order of `applyStrictDiffusion`: for every cell in
row-major order, its right-neighbor pair then its down-neighbor pair. -/
def diffPairs (N : ℕ) : List (ℕ × ℕ) :=
  (List.range N).flatMap (fun y =>
    (List.range N).flatMap (fun x =>
      let i := x + y * N
      (if x + 1 < N then [(i, i + 1)] else []) ++
      (if y + 1 < N then [(i, i + N)] else [])))

/-- One neighbor-pair exchange of `applyStrictDiffusion`.  The gradient
`delta` is read from the pre-scan snapshot `old` (`this.grid`); the
source's available energy and both writes use the working buffer
(`next`), threaded through `st` together with the diffusion heat. -/
def diffPairStep (speed cap : ℚ) (old : List ℚ) (st : List ℚ × ℚ) (ij : ℕ × ℕ) :
    List ℚ × ℚ :=
  let delta := old.getD ij.1 0 - old.getD ij.2 0
  if delta = 0 then st
  else
    let s := if 0 < delta then ij.1 else ij.2
    let r := if 0 < delta then ij.2 else ij.1
    let available := st.1.getD s 0
    if available ≤ 0 then st
    else
      let flow := min (|delta| * speed * (1/4)) (available * cap)
      if flow ≤ 0 then st
      else
        let loss := flow * (1/10)
        let net := flow - loss
        let next1 := st.1.set s (available - flow)
        let next2 := next1.set r (next1.getD r 0 + net)
        (next2, st.2 + loss)

/-- `applyStrictDiffusion(speed, cap)`: returns the new grid and the
diffusion heat generated by this call. -/
def applyStrictDiffusion (speed cap : ℚ) (grid : List ℚ) : List ℚ × ℚ :=
  let N := Nat.sqrt grid.length
  let scan := (diffPairs N).foldl (diffPairStep speed cap grid) (grid, 0)
  (scan.1.map clampNonNeg, scan.2)

/-! ## Random mode -/

/-- The grid cell index at an agent's floored position:
`gi = Math.floor(a.x) + Math.floor(a.y) * N`. -/
def agentCell (N : ℕ) (a : Agent) : ℤ :=
  Q2.floor a.x + Q2.floor a.y * N

/-- Per-agent body of the `updateRandom` loop.  Threaded state:
`((grid, stepHeatAct), rng closure state)`. -/
def randomAgentStep (N : ℕ) (st : (List ℚ × ℚ) × ℕ) (a : Agent) :
    ((List ℚ × ℚ) × ℕ) × Agent :=
  let cost : ℚ := 1/2
  let paid := min a.energy cost
  let e1 := a.energy - paid
  let heat1 := st.1.2 + paid
  let gi := agentCell N a
  let take := min (gridGet st.1.1 gi) (1/2)
  let g1 := gridSet st.1.1 gi (gridGet st.1.1 gi - take)
  let e2 := e1 + take
  let r1 := mulberryStep st.2
  let r2 := mulberryStep r1.1
  let x' := Q2.jsMod (a.x + Q2.ofRat ((r1.2 - 1/2) * 4) + Q2.ofRat N) N
  let y' := Q2.jsMod (a.y + Q2.ofRat ((r2.2 - 1/2) * 4) + Q2.ofRat N) N
  (((g1, heat1), r2.1), { a with x := x', y := y', energy := e2 })

def updateRandom (config : UserConfig) (s : EngineState) : EngineState :=
  let N := Nat.sqrt s.grid.length
  let res := mapAccum (randomAgentStep N) ((s.grid, s.stepHeatAct), s.rngRandom) s.agents
  { s with grid := res.1.1.1, stepHeatAct := res.1.1.2, rngRandom := res.1.2,
           agents := res.2 }

/-! ## Life mode -/

/-- `cos(i·π/4)` as an exact `Q2` value (`√2/2 = (0, 1/2)`). -/
def cos8 : Fin 8 → Q2
  | 0 => ⟨1, 0⟩
  | 1 => ⟨0, 1/2⟩
  | 2 => ⟨0, 0⟩
  | 3 => ⟨0, -(1/2)⟩
  | 4 => ⟨-1, 0⟩
  | 5 => ⟨0, -(1/2)⟩
  | 6 => ⟨0, 0⟩
  | 7 => ⟨0, 1/2⟩

/-- `sin(i·π/4)` as an exact `Q2` value. -/
def sin8 : Fin 8 → Q2
  | 0 => ⟨0, 0⟩
  | 1 => ⟨0, 1/2⟩
  | 2 => ⟨1, 0⟩
  | 3 => ⟨0, 1/2⟩
  | 4 => ⟨0, 0⟩
  | 5 => ⟨0, -(1/2)⟩
  | 6 => ⟨-1, 0⟩
  | 7 => ⟨0, -(1/2)⟩

/-- The sampled grid index for direction `i`:
`sx = (Math.floor(a.x + cos(ang)*2) + N) % N` and similarly `sy`, with the
JS `%` on integers being truncated remainder (`Int.tmod`). -/
def sampleIdx (N : ℕ) (a : Agent) (i : Fin 8) : ℤ :=
  let sx := Int.tmod (Q2.floor (a.x + Q2.scale 2 (cos8 i)) + N) N
  let sy := Int.tmod (Q2.floor (a.y + Q2.scale 2 (sin8 i)) + N) N
  sx + sy * N

def chemotaxisSamples (g : List ℚ) (N : ℕ) (a : Agent) : List ℚ :=
  (List.finRange 8).map (fun i => gridGet g (sampleIdx N a i))

/-- The selection loop `for (i of 0..7) if (e > maxE) { maxE = e; bestAng = ang }`.
`none` stands for the initial candidate `bestAng = atan2(vy, vx)`. -/
def selLoop {α : Type} : List (α × ℚ) → Option α × ℚ → Option α × ℚ
  | [], st => st
  | (i, e) :: rest, (best, maxE) =>
    if maxE < e then selLoop rest (some i, e) else selLoop rest (best, maxE)

/-- `(cos bestAng, sin bestAng)` when the selection kept the initial
candidate `bestAng = atan2(a.vy, a.vx)`.  The engine only ever stores the
zero heading (for which `atan2(0,0) = 0`, hence `(1,0)`) or one of the 8
unit directions (returned unchanged).  With a non-negative grid this
branch is unreachable, since every sample beats the `-1` sentinel. -/
def prevHeading (vx vy : Q2) : Q2 × Q2 :=
  if vx = 0 ∧ vy = 0 then (1, 0) else (vx, vy)

/-- The chemotaxis step: sample the 8 directions at radius 2, keep the
strictly increasing running maximum starting from `maxE = -1`. -/
def chemotaxisHeading (g : List ℚ) (N : ℕ) (a : Agent) : Q2 × Q2 :=
  let samples := chemotaxisSamples g N a
  let sel := selLoop ((List.finRange 8).zip samples) (none, -1)
  match sel.1 with
  | some i => (cos8 i, sin8 i)
  | none => prevHeading a.vx a.vy

/-- Per-agent body of the movement phase of `updateLife`.  Threaded state:
`(grid, stepHeatAct)`.  Order as in the source: basal metabolism, feeding,
chemotaxis (sampling the grid already modified by this agent's feeding),
movement cost, toroidal move along the new heading. -/
def lifeAgentStep (config : UserConfig) (N : ℕ) (st : List ℚ × ℚ) (a : Agent) :
    (List ℚ × ℚ) × Agent :=
  let basal : ℚ := 9/20
  let paid := min a.energy basal
  let e1 := a.energy - paid
  let heat1 := st.2 + paid
  let gi := agentCell N a
  let take := min (gridGet st.1 gi) config.consumptionRate
  let g1 := gridSet st.1 gi (gridGet st.1 gi - take)
  let e2 := e1 + take
  let h := chemotaxisHeading g1 N a
  let moveCost : ℚ := 1/20
  let paid2 := min e2 moveCost
  let e3 := e2 - paid2
  let heat2 := heat1 + paid2
  let x' := Q2.jsMod (a.x + h.1 + Q2.ofRat N) N
  let y' := Q2.jsMod (a.y + h.2 + Q2.ofRat N) N
  ((g1, heat2), { x := x', y := y', energy := e3, vx := h.1, vy := h.2 })

/-- The death/reproduction phase of `updateLife`, in population order.
Returns `(grid, survivors, newborns)`. -/
def lifePhase2 (N : ℕ) : List Agent → List ℚ → List ℚ × List Agent × List Agent
  | [], g => (g, [], [])
  | a :: rest, g =>
    if a.energy < 1/5 then
      let gi := agentCell N a
      let g' := gridSet g gi (gridGet g gi + a.energy)
      lifePhase2 N rest g'
    else if 10 < a.energy then
      let a' := { a with energy := a.energy * (1/2) }
      let r := lifePhase2 N rest g
      (r.1, a' :: r.2.1, a' :: r.2.2)
    else
      let r := lifePhase2 N rest g
      (r.1, a :: r.2.1, r.2.2)

def updateLife (config : UserConfig) (s : EngineState) : EngineState :=
  let N := Nat.sqrt s.grid.length
  let res := mapAccum (lifeAgentStep config N) (s.grid, s.stepHeatAct) s.agents
  let ph2 := lifePhase2 N res.2 res.1.1
  { s with grid := ph2.1, agents := ph2.2.1 ++ ph2.2.2, stepHeatAct := res.1.2 }

/-! ## The per-tick update -/

def update (config : UserConfig) (mode : Mode) (s : EngineState) :
    EngineState × EngineStepStats :=
  let s0 : EngineState := { s with stepHeatDiff := 0, stepHeatAct := 0 }
  let size := config.gridSize
  let centerIdx : ℤ := ((size / 2) * size + size / 2 : ℕ)
  let g1 := gridSet s0.grid centerIdx (gridGet s0.grid centerIdx + config.inflowRate)
  let s1 : EngineState := { s0 with grid := g1, totalInflow := s0.totalInflow + config.inflowRate }
  let d := applyStrictDiffusion config.diffusionSpeed config.diffusionCap s1.grid
  let s2 : EngineState := { s1 with grid := d.1, stepHeatDiff := s1.stepHeatDiff + d.2 }
  let s3 : EngineState :=
    match mode with
    | Mode.life => updateLife config s2
    | Mode.random => updateRandom config s2
    | Mode.off => s2
  let deltaHeat := s3.stepHeatDiff + s3.stepHeatAct
  let s4 : EngineState := { s3 with cumulativeHeat := s3.cumulativeHeat + deltaHeat }
  let internal := getTotalInternalEnergy s4
  let error := internal + s4.cumulativeHeat - (s4.initialStock + s4.totalInflow)
  (s4, { deltaHeat := deltaHeat, totalHeat := s4.cumulativeHeat,
         heatDiff := s3.stepHeatDiff, heatAct := s3.stepHeatAct,
         agentCount := s4.agents.length, energyError := error })

/-- The engine state at tick boundary `n`: `importState` from a freshly
generated master state, followed by `n` calls to `update` (the App drives
exactly one `update` per engine per tick). -/
def tickState (config : UserConfig) (mode : Mode) : ℕ → EngineState
  | 0 => importState config.seed (generateMasterState config) mode
  | n + 1 => (update config mode (tickState config mode n)).1

/-- The stats snapshot returned by the `(n+1)`-st call to `update`. -/
def tickStats (config : UserConfig) (mode : Mode) (n : ℕ) : EngineStepStats :=
  (update config mode (tickState config mode n)).2

/-- The conservation residual of an engine state: this is exactly the
`energyError` computed at the end of `update`. -/
def energyResidual (s : EngineState) : ℚ :=
  getTotalInternalEnergy s + s.cumulativeHeat - (s.initialStock + s.totalInflow)

/-! ## App-level sweep orchestration (`App.tsx`) -/

inductive SweepStatus
  | suppressor
  | accelerator
  | dead
  | invalid
deriving DecidableEq, Repr

/-- A JS `number` as consumed by `classify`: a finite value, a signed
infinity, or `NaN`. -/
inductive JSNum
  | fin (q : ℚ)
  | posInf
  | negInf
  | nan
deriving DecidableEq, Repr

/-- `Number.isFinite`. -/
def JSNum.isFinite : JSNum → Bool
  | .fin _ => true
  | _ => false

/-- The JS `<` comparison: every comparison involving `NaN` is false. -/
def JSNum.lt : JSNum → JSNum → Bool
  | .nan, _ => false
  | _, .nan => false
  | .fin a, .fin b => decide (a < b)
  | .fin _, .posInf => true
  | .fin _, .negInf => false
  | .posInf, _ => false
  | .negInf, .negInf => false
  | .negInf, _ => true

/-- `classify(avgLife, avgOff, avgAgents)` from `App.tsx`.  Note the
finiteness guard inspects only the first two arguments. -/
def classify (avgLife avgOff avgAgents : JSNum) : SweepStatus :=
  if ¬ avgLife.isFinite ∨ ¬ avgOff.isFinite then SweepStatus.invalid
  else if avgAgents.lt (JSNum.fin 1) then SweepStatus.dead
  else if avgLife.lt avgOff then SweepStatus.suppressor
  else SweepStatus.accelerator

def SWEEP_TOTAL_TICKS : ℕ := 650
def SWEEP_BURN_IN : ℕ := 350
def SWEEP_MEASURE_TICKS : ℕ := 250

/-- The accumulator `accRef`.  `errLifeMin` starts at `+∞` and
`errLifeMax` at `-∞` (modelled with `WithTop`/`WithBot`). -/
structure SweepAcc where
  n : ℕ
  sumOff : ℚ
  sumLife : ℚ
  sumLifeDiff : ℚ
  sumLifeAct : ℚ
  sumAgentsLife : ℚ
  sumAgentsRand : ℚ
  errLifeMin : WithTop ℚ
  errLifeMax : WithBot ℚ
deriving DecidableEq, Repr

/-- `resetAcc`. -/
def resetAcc : SweepAcc :=
  { n := 0, sumOff := 0, sumLife := 0, sumLifeDiff := 0, sumLifeAct := 0,
    sumAgentsLife := 0, sumAgentsRand := 0,
    errLifeMin := ⊤, errLifeMax := ⊥ }

/-- One tick of `simulateSweepStep` after the three `update` calls
returned `sOff`, `sRand`, `sLife`: the accumulator is fed iff the current
tick counter satisfies `t >= SWEEP_BURN_IN`. -/
def sweepTick (acc : SweepAcc) (t : ℕ)
    (sOff sRand sLife : EngineStepStats) : SweepAcc :=
  if SWEEP_BURN_IN ≤ t then
    { n := acc.n + 1
      sumOff := acc.sumOff + sOff.deltaHeat
      sumLife := acc.sumLife + sLife.deltaHeat
      sumLifeDiff := acc.sumLifeDiff + sLife.heatDiff
      sumLifeAct := acc.sumLifeAct + sLife.heatAct
      sumAgentsLife := acc.sumAgentsLife + sLife.agentCount
      sumAgentsRand := acc.sumAgentsRand + sRand.agentCount
      errLifeMin := min acc.errLifeMin (WithTop.some sLife.energyError)
      errLifeMax := max acc.errLifeMax (WithBot.some sLife.energyError) }
  else acc

/-- Running one full sweep point: the tick counter starts at `0` after
`runNextSweepPoint` and the loop stops once it reaches
`SWEEP_TOTAL_TICKS`, so ticks `t = 0, …, SWEEP_TOTAL_TICKS - 1` run.  The
per-tick stats of the three engines are abstracted as streams; the
tick/accumulator logic does not depend on them. -/
def runSweepPoint (statsOff statsRand statsLife : ℕ → EngineStepStats) : SweepAcc :=
  (List.range SWEEP_TOTAL_TICKS).foldl
    (fun acc t => sweepTick acc t (statsOff t) (statsRand t) (statsLife t))
    resetAcc

structure SweepResult where
  inflowRate : ℚ
  consumptionRate : ℚ
  avg_delta_off : ℚ
  avg_delta_life : ℚ
  ratio_life_off : ℚ
  avg_heatDiff_life : ℚ
  avg_heatAct_life : ℚ
  avg_agents_life : ℚ
  avg_agents_random : ℚ
  energyErr_life_min : ℚ
  energyErr_life_max : ℚ
  status : SweepStatus
deriving DecidableEq, Repr

/-- `finalizeOneSweepPoint`: `n = acc.n || 1` is the divisor of every
average; the min/max error fields fall back to `0` when still infinite. -/
def finalizeOneSweepPoint (pt : ℚ × ℚ) (acc : SweepAcc) : SweepResult :=
  let n : ℚ := if acc.n = 0 then 1 else (acc.n : ℚ)
  let avgOff := acc.sumOff / n
  let avgLife := acc.sumLife / n
  let avgLifeDiff := acc.sumLifeDiff / n
  let avgLifeAct := acc.sumLifeAct / n
  let avgAgentsLife := acc.sumAgentsLife / n
  let avgAgentsRand := acc.sumAgentsRand / n
  let status := classify (JSNum.fin avgLife) (JSNum.fin avgOff) (JSNum.fin avgAgentsLife)
  { inflowRate := pt.1
    consumptionRate := pt.2
    avg_delta_off := avgOff
    avg_delta_life := avgLife
    ratio_life_off := avgLife / (if avgOff = 0 then 1 / 1000000000 else avgOff)
    avg_heatDiff_life := avgLifeDiff
    avg_heatAct_life := avgLifeAct
    avg_agents_life := avgAgentsLife
    avg_agents_random := avgAgentsRand
    energyErr_life_min := match acc.errLifeMin with
      | WithTop.some e => e
      | ⊤ => 0
    energyErr_life_max := match acc.errLifeMax with
      | WithBot.some e => e
      | ⊥ => 0
    status := status }

/-! ## Reference variants used to compare the code against the spec's words -/

/-- Modelled from the spec (claim C3): the same scan, but with the gradient
`delta` (and the source/receiver choice it makes) also read from the
in-scan working buffer — full Gauss–Seidel semantics as claimed. -/
def diffPairStepGS (speed cap : ℚ) (st : List ℚ × ℚ) (ij : ℕ × ℕ) :
    List ℚ × ℚ :=
  let delta := st.1.getD ij.1 0 - st.1.getD ij.2 0
  if delta = 0 then st
  else
    let s := if 0 < delta then ij.1 else ij.2
    let r := if 0 < delta then ij.2 else ij.1
    let available := st.1.getD s 0
    if available ≤ 0 then st
    else
      let flow := min (|delta| * speed * (1/4)) (available * cap)
      if flow ≤ 0 then st
      else
        let loss := flow * (1/10)
        let net := flow - loss
        let next1 := st.1.set s (available - flow)
        let next2 := next1.set r (next1.getD r 0 + net)
        (next2, st.2 + loss)

def applyDiffusionGS (speed cap : ℚ) (grid : List ℚ) : List ℚ × ℚ :=
  let N := Nat.sqrt grid.length
  let scan := (diffPairs N).foldl (diffPairStepGS speed cap) (grid, 0)
  (scan.1.map clampNonNeg, scan.2)

/-- Snapshot-available (Jacobi-style) variant: both the gradient and the
source's available energy are read from the pre-scan snapshot; writes
still accumulate in the working buffer. -/
def diffPairStepJacobi (speed cap : ℚ) (old : List ℚ) (st : List ℚ × ℚ) (ij : ℕ × ℕ) :
    List ℚ × ℚ :=
  let delta := old.getD ij.1 0 - old.getD ij.2 0
  if delta = 0 then st
  else
    let s := if 0 < delta then ij.1 else ij.2
    let r := if 0 < delta then ij.2 else ij.1
    let available := old.getD s 0
    if available ≤ 0 then st
    else
      let flow := min (|delta| * speed * (1/4)) (available * cap)
      if flow ≤ 0 then st
      else
        let loss := flow * (1/10)
        let net := flow - loss
        let next1 := st.1.set s (st.1.getD s 0 - flow)
        let next2 := next1.set r (next1.getD r 0 + net)
        (next2, st.2 + loss)

def applyDiffusionJacobi (speed cap : ℚ) (grid : List ℚ) : List ℚ × ℚ :=
  let N := Nat.sqrt grid.length
  let scan := (diffPairs N).foldl (diffPairStepJacobi speed cap grid) (grid, 0)
  (scan.1.map clampNonNeg, scan.2)

/-- Reference reformulation of the (amended) classification contract:
finiteness is decided by pattern matching on the two delta-heat averages
only, then the `dead`/`suppressor`/`accelerator` cascade. -/
def classifySpec (avgLife avgOff avgAgents : JSNum) : SweepStatus :=
  match avgLife, avgOff with
  | JSNum.fin l, JSNum.fin o =>
    if avgAgents.lt (JSNum.fin 1) then SweepStatus.dead
    else if l < o then SweepStatus.suppressor
    else SweepStatus.accelerator
  | _, _ => SweepStatus.invalid

/-- Modelled from the spec (§4.2, claim C7): the master grid as a function
of `(gridSize, initialSpread)` alone — no seed, no RNG. -/
def masterGrid (size : ℕ) (spread : ℚ) : List ℚ :=
  let center : ℚ := (size : ℚ) / 2
  (List.range (size * size)).map (fun i =>
    let x : ℚ := ((i % size : ℕ) : ℚ)
    let y : ℚ := ((i / size : ℕ) : ℚ)
    let dist2 := (x - center) ^ 2 + (y - center) ^ 2
    if 0 < spread ∧ dist2 < spread ^ 2 then (15 : ℚ) else 1)

/-- The list of tick counters that feed the accumulator during one sweep
point. -/
def measuredTicks : List ℕ :=
  (List.range SWEEP_TOTAL_TICKS).filter (fun t => SWEEP_BURN_IN ≤ t)

/-! ### Concrete inputs for the counterexamples -/

/-- A 2×2 grid concentrating all energy in cell 1. -/
def gridCE : List ℚ := [0, 10, 0, 0]

/-- An 8×8 grid with every cell equal to 1 (all chemotaxis samples tie). -/
def uniformGrid : List ℚ := List.replicate 64 1

/-- An agent in the middle of `uniformGrid` currently heading north
(`(vx, vy) = (0, 1)`). -/
def agentNorth : Agent :=
  { x := ⟨4, 0⟩, y := ⟨4, 0⟩, energy := 5, vx := ⟨0, 0⟩, vy := ⟨1, 0⟩ }

/-- An all-zero per-tick stats record (used as a constant stats stream). -/
def statsZero : EngineStepStats :=
  { deltaHeat := 0, totalHeat := 0, heatDiff := 0, heatAct := 0,
    agentCount := 0, energyError := 0 }

/-- A small valid configuration used to instantiate the conditional
theorems on concrete inputs. -/
def cfgW : UserConfig :=
  { gridSize := 2, inflowRate := 1, consumptionRate := 1,
    diffusionSpeed := 1/10, diffusionCap := 4/5,
    initialAgents := 1, initialSpread := 1, seed := 7 }

/-- An agent below the death threshold. -/
def agentDying : Agent :=
  { x := ⟨1/2, 0⟩, y := ⟨1/2, 0⟩, energy := 1/10, vx := ⟨1, 0⟩, vy := ⟨0, 0⟩ }

/-- An agent above the reproduction threshold. -/
def agentBreeder : Agent :=
  { x := ⟨3/2, 0⟩, y := ⟨1/2, 0⟩, energy := 12, vx := ⟨0, 0⟩, vy := ⟨1, 0⟩ }

/-- A uniform 2×2 grid. -/
def gridW : List ℚ := [1, 1, 1, 1]

/-- A concrete engine state holding `agentDying` and `agentBreeder` on
`gridW`. -/
def stateW : EngineState :=
  { grid := gridW, agents := [agentDying, agentBreeder], initialStock := 4,
    totalInflow := 0, cumulativeHeat := 0, stepHeatDiff := 0, stepHeatAct := 0,
    seed := 7, rngRandom := 7 }

/-! ## Basic list and grid lemmas -/

theorem sum_set_getD (l : List ℚ) :
    ∀ n : ℕ, n < l.length → ∀ v : ℚ, (l.set n v).sum = l.sum - l.getD n 0 + v := by
  induction l with
  | nil => intro n h; simp at h
  | cons a as ih =>
    intro n h v
    cases n with
    | zero =>
      simp only [List.set, List.sum_cons, List.getD_cons_zero]
      ring
    | succ m =>
      simp only [List.set, List.sum_cons, List.getD_cons_succ]
      rw [ih m (by simpa using h) v]
      ring

theorem getD_nonneg {l : List ℚ} (h : ∀ x ∈ l, 0 ≤ x) (n : ℕ) : 0 ≤ l.getD n 0 := by
  by_cases hn : n < l.length
  · rw [List.getD_eq_getElem _ _ hn]
    exact h _ (List.getElem_mem hn)
  · rw [List.getD_eq_default _ _ (by omega)]

theorem gridSet_length (g : List ℚ) (i : ℤ) (v : ℚ) :
    (gridSet g i v).length = g.length := by
  unfold gridSet
  by_cases h : 0 ≤ i
  · rw [if_pos h, List.length_set]
  · rw [if_neg h]

theorem gridGet_nonneg {g : List ℚ} (h : ∀ x ∈ g, 0 ≤ x) (i : ℤ) : 0 ≤ gridGet g i := by
  unfold gridGet
  by_cases hi : 0 ≤ i
  · rw [if_pos hi]
    exact getD_nonneg h _
  · rw [if_neg hi]

theorem gridSet_nonneg {g : List ℚ} (h : ∀ x ∈ g, 0 ≤ x) {v : ℚ} (hv : 0 ≤ v) (i : ℤ) :
    ∀ x ∈ gridSet g i v, 0 ≤ x := by
  unfold gridSet
  by_cases hi : 0 ≤ i
  · rw [if_pos hi]
    intro x hx
    rcases List.mem_or_eq_of_mem_set hx with hmem | hrfl
    · exact h _ hmem
    · rw [hrfl]; exact hv
  · rw [if_neg hi]
    exact h

theorem gridSet_sum {g : List ℚ} {i : ℤ} (h0 : 0 ≤ i) (h1 : i.toNat < g.length) (v : ℚ) :
    (gridSet g i v).sum = g.sum - gridGet g i + v := by
  unfold gridSet gridGet
  rw [if_pos h0, if_pos h0, sum_set_getD _ _ h1]

theorem gridGet_oob {g : List ℚ} {i : ℤ} (h : ¬ (0 ≤ i ∧ i.toNat < g.length)) :
    gridGet g i = 0 := by
  unfold gridGet
  by_cases hi : 0 ≤ i
  · rw [if_pos hi, List.getD_eq_default]
    omega
  · rw [if_neg hi]

theorem gridSet_oob {g : List ℚ} {i : ℤ} (h : ¬ (0 ≤ i ∧ i.toNat < g.length)) (v : ℚ) :
    gridSet g i v = g := by
  unfold gridSet
  by_cases hi : 0 ≤ i
  · rw [if_pos hi, List.set_eq_of_length_le]
    omega
  · rw [if_neg hi]

/-- Withdrawing `min (cell, c)` with `c ≥ 0` always removes exactly the
taken amount from the grid total (out-of-range: nothing is taken or
changed). -/
theorem gridWithdraw_sum (g : List ℚ) (i : ℤ) {c : ℚ} (hc : 0 ≤ c) :
    (gridSet g i (gridGet g i - min (gridGet g i) c)).sum
      = g.sum - min (gridGet g i) c := by
  by_cases hib : 0 ≤ i ∧ i.toNat < g.length
  · rw [gridSet_sum hib.1 hib.2]
    ring
  · rw [gridSet_oob hib, gridGet_oob hib]
    simp [min_eq_left hc]

theorem gridWithdraw_nonneg {g : List ℚ} (h : ∀ x ∈ g, 0 ≤ x) (i : ℤ) (c : ℚ) :
    ∀ x ∈ gridSet g i (gridGet g i - min (gridGet g i) c), 0 ≤ x := by
  apply gridSet_nonneg h
  have := gridGet_nonneg h i
  have := min_le_left (gridGet g i) c
  linarith

theorem gridDeposit_sum {g : List ℚ} {i : ℤ} (h0 : 0 ≤ i) (h1 : i.toNat < g.length)
    (e : ℚ) : (gridSet g i (gridGet g i + e)).sum = g.sum + e := by
  rw [gridSet_sum h0 h1]
  ring

theorem gridDeposit_nonneg {g : List ℚ} (h : ∀ x ∈ g, 0 ≤ x) {e : ℚ} (he : 0 ≤ e) (i : ℤ) :
    ∀ x ∈ gridSet g i (gridGet g i + e), 0 ≤ x := by
  apply gridSet_nonneg h
  have := gridGet_nonneg h i
  linarith

theorem clampNonNeg_nonneg (x : ℚ) : 0 ≤ clampNonNeg x := by
  unfold clampNonNeg
  by_cases h : x < 0
  · rw [if_pos h]
  · rw [if_neg h]; linarith

theorem map_clampNonNeg_of_nonneg {l : List ℚ} (h : ∀ x ∈ l, 0 ≤ x) :
    l.map clampNonNeg = l := by
  induction l with
  | nil => rfl
  | cons a as ih =>
    have ha : clampNonNeg a = a := by
      unfold clampNonNeg
      rw [if_neg (by have := h a (by simp); linarith)]
    simp only [List.map_cons, ha]
    rw [ih (fun x hx => h x (by simp [hx]))]

/-! ## Diffusion lemmas -/

theorem set_set_sum (l : List ℚ) (s r : ℕ) (hs : s < l.length) (hr : r < l.length)
    (v net : ℚ) :
    ((l.set s v).set r ((l.set s v).getD r 0 + net)).sum
      = l.sum - l.getD s 0 + v + net := by
  rw [sum_set_getD _ r (by rw [List.length_set]; exact hr),
      sum_set_getD _ s hs]
  ring

theorem set_nonneg_of_nonneg {l : List ℚ} (h : ∀ x ∈ l, 0 ≤ x) {v : ℚ} (hv : 0 ≤ v)
    (n : ℕ) : ∀ x ∈ l.set n v, 0 ≤ x := by
  intro x hx
  rcases List.mem_or_eq_of_mem_set hx with hmem | hrfl
  · exact h _ hmem
  · rw [hrfl]; exact hv

theorem diffPairStep_length (speed cap : ℚ) (old : List ℚ) (st : List ℚ × ℚ)
    (ij : ℕ × ℕ) : (diffPairStep speed cap old st ij).1.length = st.1.length := by
  unfold diffPairStep
  dsimp only
  split_ifs <;> simp [List.length_set]

theorem diffPairStep_sum (speed cap : ℚ) (old : List ℚ) (st : List ℚ × ℚ) (ij : ℕ × ℕ)
    (hi : ij.1 < st.1.length) (hj : ij.2 < st.1.length) :
    (diffPairStep speed cap old st ij).1.sum + (diffPairStep speed cap old st ij).2
      = st.1.sum + st.2 := by
  obtain ⟨next, heat⟩ := st
  unfold diffPairStep
  dsimp only at hi hj ⊢
  split_ifs with h1 h2 h3 h4
  · rfl
  · rfl
  · rfl
  · rw [set_set_sum _ _ _ hi hj]
    ring
  · rfl
  · rfl
  · rw [set_set_sum _ _ _ hj hi]
    ring

/-- Generic single-exchange non-negativity: subtracting `flow ≤ source`
from the source and adding `net ≥ 0` to the receiver keeps everything
non-negative. -/
theorem exchange_nonneg {next : List ℚ} (h : ∀ x ∈ next, 0 ≤ x) (s r : ℕ)
    {flow net : ℚ} (hfs : flow ≤ next.getD s 0) (hnet : 0 ≤ net) :
    ∀ x ∈ (next.set s (next.getD s 0 - flow)).set r
        ((next.set s (next.getD s 0 - flow)).getD r 0 + net), 0 ≤ x := by
  have hsrc : 0 ≤ next.getD s 0 - flow := by linarith
  have hnext1 := set_nonneg_of_nonneg h hsrc s
  apply set_nonneg_of_nonneg hnext1
  have := getD_nonneg hnext1 r
  linarith

theorem diffPairStep_nonneg (speed cap : ℚ) (old : List ℚ) (st : List ℚ × ℚ)
    (ij : ℕ × ℕ) (hcap : cap ≤ 1) (h : ∀ x ∈ st.1, 0 ≤ x) :
    ∀ x ∈ (diffPairStep speed cap old st ij).1, 0 ≤ x := by
  obtain ⟨next, heat⟩ := st
  unfold diffPairStep
  dsimp only at h ⊢
  split_ifs with h1 h2 h3 h4 h5 h6
  · exact h
  · exact h
  · exact h
  · refine exchange_nonneg h ij.1 ij.2 ?_ ?_
    · have hav : (0:ℚ) < next.getD ij.1 0 := lt_of_not_le h3
      have hc : next.getD ij.1 0 * cap ≤ next.getD ij.1 0 :=
        mul_le_of_le_one_right hav.le hcap
      exact le_trans (min_le_right _ _) hc
    · have hf := lt_of_not_le h4
      linarith
  · exact h
  · exact h
  · refine exchange_nonneg h ij.2 ij.1 ?_ ?_
    · have hav : (0:ℚ) < next.getD ij.2 0 := lt_of_not_le h5
      have hc : next.getD ij.2 0 * cap ≤ next.getD ij.2 0 :=
        mul_le_of_le_one_right hav.le hcap
      exact le_trans (min_le_right _ _) hc
    · have hf := lt_of_not_le h6
      linarith

theorem diffScan_length (speed cap : ℚ) (old : List ℚ) (ps : List (ℕ × ℕ)) :
    ∀ st : List ℚ × ℚ,
      (ps.foldl (diffPairStep speed cap old) st).1.length = st.1.length := by
  induction ps with
  | nil => intro st; rfl
  | cons p rest ih =>
    intro st
    rw [List.foldl_cons, ih, diffPairStep_length]

theorem diffScan_sum (speed cap : ℚ) (old : List ℚ) (ps : List (ℕ × ℕ)) :
    ∀ st : List ℚ × ℚ,
      (∀ p ∈ ps, p.1 < st.1.length ∧ p.2 < st.1.length) →
      (ps.foldl (diffPairStep speed cap old) st).1.sum
        + (ps.foldl (diffPairStep speed cap old) st).2 = st.1.sum + st.2 := by
  induction ps with
  | nil => intro st _; rfl
  | cons p rest ih =>
    intro st hb
    have hp := hb p (by simp)
    rw [List.foldl_cons,
        ih _ (fun q hq => by
          rw [diffPairStep_length]
          exact hb q (by simp [hq])),
        diffPairStep_sum _ _ _ _ _ hp.1 hp.2]

theorem diffScan_nonneg (speed cap : ℚ) (old : List ℚ) (hcap : cap ≤ 1)
    (ps : List (ℕ × ℕ)) :
    ∀ st : List ℚ × ℚ, (∀ x ∈ st.1, 0 ≤ x) →
      ∀ x ∈ (ps.foldl (diffPairStep speed cap old) st).1, 0 ≤ x := by
  induction ps with
  | nil => intro st h; exact h
  | cons p rest ih =>
    intro st h
    rw [List.foldl_cons]
    exact ih _ (diffPairStep_nonneg _ _ _ _ _ hcap h)

theorem diffPairs_bounds (N : ℕ) : ∀ p ∈ diffPairs N, p.1 < N * N ∧ p.2 < N * N := by
  intro p hp
  unfold diffPairs at hp
  simp only [List.mem_flatMap, List.mem_range] at hp
  obtain ⟨y, hy, x, hx, hmem⟩ := hp
  have hiN : ∀ z : ℕ, z < N → z + y * N < N * N := by
    intro z hz
    calc z + y * N < N + y * N := by omega
      _ = (y + 1) * N := by ring
      _ ≤ N * N := Nat.mul_le_mul_right N (by omega)
  rw [List.mem_append] at hmem
  rcases hmem with hr | hd
  · by_cases hxN : x + 1 < N
    · rw [if_pos hxN] at hr
      simp only [List.mem_singleton] at hr
      subst hr
      constructor
      · exact hiN x (by omega)
      · have : x + 1 + y * N < N * N := hiN (x + 1) hxN
        omega
    · rw [if_neg hxN] at hr
      simp at hr
  · by_cases hyN : y + 1 < N
    · rw [if_pos hyN] at hd
      simp only [List.mem_singleton] at hd
      subst hd
      constructor
      · exact hiN x (by omega)
      · have hstep : x + (y + 1) * N < N * N := by
          calc x + (y + 1) * N < N + (y + 1) * N := by omega
            _ = (y + 2) * N := by ring
            _ ≤ N * N := Nat.mul_le_mul_right N (by omega)
        calc x + y * N + N = x + (y + 1) * N := by ring
          _ < N * N := hstep
    · rw [if_neg hyN] at hd
      simp at hd

theorem sq_sqrt_le (n : ℕ) : Nat.sqrt n * Nat.sqrt n ≤ n := by
  have := Nat.sqrt_le' n
  calc Nat.sqrt n * Nat.sqrt n = Nat.sqrt n ^ 2 := by ring
    _ ≤ n := this

theorem applyStrictDiffusion_length (speed cap : ℚ) (g : List ℚ) :
    (applyStrictDiffusion speed cap g).1.length = g.length := by
  unfold applyStrictDiffusion
  dsimp only
  rw [List.length_map, diffScan_length]

theorem applyStrictDiffusion_nonneg (speed cap : ℚ) (g : List ℚ) :
    ∀ x ∈ (applyStrictDiffusion speed cap g).1, 0 ≤ x := by
  unfold applyStrictDiffusion
  dsimp only
  intro x hx
  rw [List.mem_map] at hx
  obtain ⟨y, _, rfl⟩ := hx
  exact clampNonNeg_nonneg y

/-- Exact conservation of the diffusion scan: with a fraction cap at most
`1` and a non-negative grid no cell ever goes negative inside the scan, so
the final clamp is the identity and `new grid total + heat = old total`. -/
theorem applyStrictDiffusion_conserves (speed cap : ℚ) (g : List ℚ) (hcap : cap ≤ 1)
    (hg : ∀ x ∈ g, 0 ≤ x) :
    (applyStrictDiffusion speed cap g).1.sum + (applyStrictDiffusion speed cap g).2
      = g.sum := by
  unfold applyStrictDiffusion
  dsimp only
  have hb : ∀ p ∈ diffPairs (Nat.sqrt g.length), p.1 < g.length ∧ p.2 < g.length := by
    intro p hp
    have h1 := diffPairs_bounds (Nat.sqrt g.length) p hp
    have h2 := sq_sqrt_le g.length
    omega
  have hnn := diffScan_nonneg speed cap g hcap (diffPairs (Nat.sqrt g.length)) (g, 0) hg
  rw [map_clampNonNeg_of_nonneg hnn]
  have := diffScan_sum speed cap g (diffPairs (Nat.sqrt g.length)) (g, 0) hb
  simpa using this

/-! ## Agent invariants -/

/-- Invariant on a single agent: non-negative energy, toroidal position in
`[0, N)`, heading components bounded by one. -/
def AgentInv (N : ℕ) (a : Agent) : Prop :=
  0 ≤ a.energy ∧
  0 ≤ Q2.toReal a.x ∧ Q2.toReal a.x < N ∧
  0 ≤ Q2.toReal a.y ∧ Q2.toReal a.y < N ∧
  |Q2.toReal a.vx| ≤ 1 ∧ |Q2.toReal a.vy| ≤ 1

theorem agentCell_bounds {N : ℕ} {a : Agent} (hN : 0 < N) (ha : AgentInv N a) :
    0 ≤ agentCell N a ∧ (agentCell N a).toNat < N * N := by
  obtain ⟨_, hx0, hxN, hy0, hyN, _, _⟩ := ha
  have hgx0 : 0 ≤ Q2.floor a.x := Q2.floor_nonneg hx0
  have hgxN : Q2.floor a.x < (N : ℤ) := Q2.floor_lt_nat hxN
  have hgy0 : 0 ≤ Q2.floor a.y := Q2.floor_nonneg hy0
  have hgyN : Q2.floor a.y < (N : ℤ) := Q2.floor_lt_nat hyN
  unfold agentCell
  have h1 : 0 ≤ Q2.floor a.x + Q2.floor a.y * N := by positivity
  constructor
  · exact h1
  · have h2 : Q2.floor a.x + Q2.floor a.y * N ≤ (N - 1 : ℤ) + (N - 1) * N := by
      have : Q2.floor a.y * (N : ℤ) ≤ (N - 1) * N := by
        apply mul_le_mul_of_nonneg_right _ (by positivity)
        omega
      omega
    have h3 : Q2.floor a.x + Q2.floor a.y * N < (N : ℤ) * N := by
      have : (N - 1 : ℤ) + (N - 1) * N < N * N := by ring_nf; omega
      omega
    omega

theorem mapAccum_length {σ α β : Type} (f : σ → α → σ × β) :
    ∀ (l : List α) (st : σ), (mapAccum f st l).2.length = l.length := by
  intro l
  induction l with
  | nil => intro st; rfl
  | cons a as ih =>
    intro st
    unfold mapAccum
    simp [ih]

/-! ## Random-mode lemmas -/

theorem randomAgentStep_props (N : ℕ) (st : (List ℚ × ℚ) × ℕ) (a : Agent) :
    (randomAgentStep N st a).1.1.1.sum + (randomAgentStep N st a).1.1.2
        + (randomAgentStep N st a).2.energy
      = st.1.1.sum + st.1.2 + a.energy ∧
    (randomAgentStep N st a).1.1.1.length = st.1.1.length ∧
    (randomAgentStep N st a).2.vx = a.vx ∧ (randomAgentStep N st a).2.vy = a.vy := by
  unfold randomAgentStep
  dsimp only
  refine ⟨?_, gridSet_length _ _ _, rfl, rfl⟩
  rw [gridWithdraw_sum _ _ (by norm_num : (0:ℚ) ≤ 1/2)]
  ring

theorem randomAgentStep_inv {N : ℕ} (hN : 2 ≤ N) (st : (List ℚ × ℚ) × ℕ) {a : Agent}
    (hg : ∀ x ∈ st.1.1, 0 ≤ x) (ha : AgentInv N a) :
    (∀ x ∈ (randomAgentStep N st a).1.1.1, 0 ≤ x) ∧
    AgentInv N (randomAgentStep N st a).2 := by
  obtain ⟨he, hx0, hxN, hy0, hyN, hvx, hvy⟩ := ha
  have hNpos : 0 < N := by omega
  have hNR : (2 : ℝ) ≤ (N : ℝ) := by exact_mod_cast hN
  unfold randomAgentStep
  dsimp only
  refine ⟨gridWithdraw_nonneg hg _ _, ?_, ?_, ?_, ?_, ?_, hvx, hvy⟩
  · -- energy
    have h1 : min a.energy (1/2 : ℚ) ≤ a.energy := min_le_left _ _
    have h2 : 0 ≤ min (gridGet st.1.1 (agentCell N a)) (1/2 : ℚ) :=
      le_min (gridGet_nonneg hg _) (by norm_num)
    dsimp only
    linarith
  · -- 0 ≤ x'
    refine (Q2.jsMod_bounds _ N hNpos ?_).1
    have hrR : (0:ℝ) ≤ ((mulberryStep st.2).2 : ℝ) := by
      exact_mod_cast (mulberryStep_val_bounds st.2).1
    rw [Q2.toReal_add, Q2.toReal_add, Q2.toReal_ofRat, Q2.toReal_ofRat]
    push_cast
    linarith
  · -- x' < N
    refine (Q2.jsMod_bounds _ N hNpos ?_).2
    have hrR : (0:ℝ) ≤ ((mulberryStep st.2).2 : ℝ) := by
      exact_mod_cast (mulberryStep_val_bounds st.2).1
    rw [Q2.toReal_add, Q2.toReal_add, Q2.toReal_ofRat, Q2.toReal_ofRat]
    push_cast
    linarith
  · -- 0 ≤ y'
    refine (Q2.jsMod_bounds _ N hNpos ?_).1
    have hrR : (0:ℝ) ≤ ((mulberryStep (mulberryStep st.2).1).2 : ℝ) := by
      exact_mod_cast (mulberryStep_val_bounds (mulberryStep st.2).1).1
    rw [Q2.toReal_add, Q2.toReal_add, Q2.toReal_ofRat, Q2.toReal_ofRat]
    push_cast
    linarith
  · -- y' < N
    refine (Q2.jsMod_bounds _ N hNpos ?_).2
    have hrR : (0:ℝ) ≤ ((mulberryStep (mulberryStep st.2).1).2 : ℝ) := by
      exact_mod_cast (mulberryStep_val_bounds (mulberryStep st.2).1).1
    rw [Q2.toReal_add, Q2.toReal_add, Q2.toReal_ofRat, Q2.toReal_ofRat]
    push_cast
    linarith

theorem randomFold_energy (N : ℕ) :
    ∀ (l : List Agent) (st : (List ℚ × ℚ) × ℕ),
      (mapAccum (randomAgentStep N) st l).1.1.1.sum
        + (mapAccum (randomAgentStep N) st l).1.1.2
        + ((mapAccum (randomAgentStep N) st l).2.map Agent.energy).sum
      = st.1.1.sum + st.1.2 + (l.map Agent.energy).sum := by
  intro l
  induction l with
  | nil => intro st; simp [mapAccum]
  | cons a as ih =>
    intro st
    have hstep := randomAgentStep_props N st a
    unfold mapAccum
    dsimp only
    rw [List.map_cons, List.sum_cons, List.map_cons, List.sum_cons]
    have := ih (randomAgentStep N st a).1
    -- reassociate
    have goal :
        (mapAccum (randomAgentStep N) (randomAgentStep N st a).1 as).1.1.1.sum
          + (mapAccum (randomAgentStep N) (randomAgentStep N st a).1 as).1.1.2
          + ((mapAccum (randomAgentStep N) (randomAgentStep N st a).1 as).2.map
              Agent.energy).sum
        = (randomAgentStep N st a).1.1.1.sum + (randomAgentStep N st a).1.1.2
          + (as.map Agent.energy).sum := this
    linarith [hstep.1]

theorem randomFold_headings (N : ℕ) :
    ∀ (l : List Agent) (st : (List ℚ × ℚ) × ℕ),
      ((mapAccum (randomAgentStep N) st l).2).map (fun a => (a.vx, a.vy))
        = l.map (fun a => (a.vx, a.vy)) := by
  intro l
  induction l with
  | nil => intro st; rfl
  | cons a as ih =>
    intro st
    have hstep := randomAgentStep_props N st a
    unfold mapAccum
    dsimp only
    rw [List.map_cons, List.map_cons, ih, hstep.2.2.1, hstep.2.2.2]

theorem randomFold_inv {N : ℕ} (hN : 2 ≤ N) :
    ∀ (l : List Agent) (st : (List ℚ × ℚ) × ℕ),
      (∀ x ∈ st.1.1, 0 ≤ x) → (∀ a ∈ l, AgentInv N a) →
      (∀ x ∈ (mapAccum (randomAgentStep N) st l).1.1.1, 0 ≤ x) ∧
      (∀ a ∈ (mapAccum (randomAgentStep N) st l).2, AgentInv N a) := by
  intro l
  induction l with
  | nil =>
    intro st hg _
    exact ⟨hg, by simp [mapAccum]⟩
  | cons a as ih =>
    intro st hg hl
    have hstep := randomAgentStep_inv hN st hg (hl a (by simp))
    have hrest := ih (randomAgentStep N st a).1 hstep.1
      (fun b hb => hl b (by simp [hb]))
    unfold mapAccum
    dsimp only
    refine ⟨hrest.1, ?_⟩
    intro b hb
    rcases List.mem_cons.mp hb with hrfl | hmem
    · rw [hrfl]; exact hstep.2
    · exact hrest.2 b hmem

/-! ## Life-mode lemmas -/

theorem sqrt_two_le_two : Real.sqrt 2 ≤ 2 := by
  nlinarith [Q2.sq_sqrt_two, Q2.sqrt_two_pos]

theorem cos8_abs_le (i : Fin 8) : |Q2.toReal (cos8 i)| ≤ 1 := by
  have h2 := sqrt_two_le_two
  have h0 := Q2.sqrt_two_pos
  fin_cases i <;>
    simp only [cos8, Q2.toReal_mk] <;>
    · rw [abs_le]
      push_cast
      constructor <;> nlinarith

theorem sin8_abs_le (i : Fin 8) : |Q2.toReal (sin8 i)| ≤ 1 := by
  have h2 := sqrt_two_le_two
  have h0 := Q2.sqrt_two_pos
  fin_cases i <;>
    simp only [sin8, Q2.toReal_mk] <;>
    · rw [abs_le]
      push_cast
      constructor <;> nlinarith

theorem prevHeading_bound {vx vy : Q2} (hvx : |Q2.toReal vx| ≤ 1)
    (hvy : |Q2.toReal vy| ≤ 1) :
    |Q2.toReal (prevHeading vx vy).1| ≤ 1 ∧ |Q2.toReal (prevHeading vx vy).2| ≤ 1 := by
  unfold prevHeading
  by_cases h : vx = 0 ∧ vy = 0
  · rw [if_pos h]
    constructor <;> simp
  · rw [if_neg h]
    exact ⟨hvx, hvy⟩

theorem chemotaxisHeading_bound (g : List ℚ) (N : ℕ) (a : Agent)
    (hvx : |Q2.toReal a.vx| ≤ 1) (hvy : |Q2.toReal a.vy| ≤ 1) :
    |Q2.toReal (chemotaxisHeading g N a).1| ≤ 1 ∧
    |Q2.toReal (chemotaxisHeading g N a).2| ≤ 1 := by
  unfold chemotaxisHeading
  dsimp only
  rcases hsel : (selLoop ((List.finRange 8).zip (chemotaxisSamples g N a)) (none, -1)).1
    with _ | i
  · exact prevHeading_bound hvx hvy
  · exact ⟨cos8_abs_le i, sin8_abs_le i⟩

theorem lifeAgentStep_props (config : UserConfig) (N : ℕ) (st : List ℚ × ℚ) (a : Agent)
    (hc : 0 ≤ config.consumptionRate) :
    (lifeAgentStep config N st a).1.1.sum + (lifeAgentStep config N st a).1.2
        + (lifeAgentStep config N st a).2.energy
      = st.1.sum + st.2 + a.energy ∧
    (lifeAgentStep config N st a).1.1.length = st.1.length := by
  unfold lifeAgentStep
  dsimp only
  refine ⟨?_, gridSet_length _ _ _⟩
  rw [gridWithdraw_sum _ _ hc]
  ring

theorem lifeAgentStep_inv {config : UserConfig} {N : ℕ} (hN : 1 ≤ N)
    (hc : 0 ≤ config.consumptionRate) (st : List ℚ × ℚ) {a : Agent}
    (hg : ∀ x ∈ st.1, 0 ≤ x) (ha : AgentInv N a) :
    (∀ x ∈ (lifeAgentStep config N st a).1.1, 0 ≤ x) ∧
    AgentInv N (lifeAgentStep config N st a).2 := by
  obtain ⟨he, hx0, hxN, hy0, hyN, hvx, hvy⟩ := ha
  have hNpos : 0 < N := by omega
  have hNR : (1 : ℝ) ≤ (N : ℝ) := by exact_mod_cast hN
  have hg1 : ∀ x ∈ gridSet st.1 (agentCell N a)
      (gridGet st.1 (agentCell N a)
        - min (gridGet st.1 (agentCell N a)) config.consumptionRate), 0 ≤ x :=
    gridWithdraw_nonneg hg _ _
  have hhead := chemotaxisHeading_bound
    (gridSet st.1 (agentCell N a)
      (gridGet st.1 (agentCell N a)
        - min (gridGet st.1 (agentCell N a)) config.consumptionRate)) N a hvx hvy
  unfold lifeAgentStep
  dsimp only
  refine ⟨hg1, ?_, ?_, ?_, ?_, ?_, hhead.1, hhead.2⟩
  · -- energy
    have h1 : min a.energy (9/20 : ℚ) ≤ a.energy := min_le_left _ _
    have h2 : 0 ≤ min (gridGet st.1 (agentCell N a)) config.consumptionRate :=
      le_min (gridGet_nonneg hg _) hc
    have h3 : min (a.energy - min a.energy (9/20)
        + min (gridGet st.1 (agentCell N a)) config.consumptionRate) (1/20 : ℚ)
        ≤ a.energy - min a.energy (9/20)
          + min (gridGet st.1 (agentCell N a)) config.consumptionRate :=
      min_le_left _ _
    linarith
  · -- 0 ≤ x'
    refine (Q2.jsMod_bounds _ N hNpos ?_).1
    rw [Q2.toReal_add, Q2.toReal_add, Q2.toReal_ofRat]
    have := abs_le.mp hhead.1
    push_cast
    linarith [this.1]
  · -- x' < N
    refine (Q2.jsMod_bounds _ N hNpos ?_).2
    rw [Q2.toReal_add, Q2.toReal_add, Q2.toReal_ofRat]
    have := abs_le.mp hhead.1
    push_cast
    linarith [this.1]
  · -- 0 ≤ y'
    refine (Q2.jsMod_bounds _ N hNpos ?_).1
    rw [Q2.toReal_add, Q2.toReal_add, Q2.toReal_ofRat]
    have := abs_le.mp hhead.2
    push_cast
    linarith [this.1]
  · -- y' < N
    refine (Q2.jsMod_bounds _ N hNpos ?_).2
    rw [Q2.toReal_add, Q2.toReal_add, Q2.toReal_ofRat]
    have := abs_le.mp hhead.2
    push_cast
    linarith [this.1]

theorem lifeFold_energy (config : UserConfig) (N : ℕ) (hc : 0 ≤ config.consumptionRate) :
    ∀ (l : List Agent) (st : List ℚ × ℚ),
      (mapAccum (lifeAgentStep config N) st l).1.1.sum
        + (mapAccum (lifeAgentStep config N) st l).1.2
        + ((mapAccum (lifeAgentStep config N) st l).2.map Agent.energy).sum
      = st.1.sum + st.2 + (l.map Agent.energy).sum := by
  intro l
  induction l with
  | nil => intro st; simp [mapAccum]
  | cons a as ih =>
    intro st
    have hstep := lifeAgentStep_props config N st a hc
    unfold mapAccum
    dsimp only
    rw [List.map_cons, List.sum_cons, List.map_cons, List.sum_cons]
    have := ih (lifeAgentStep config N st a).1
    linarith [hstep.1]

theorem lifeFold_inv {config : UserConfig} {N : ℕ} (hN : 1 ≤ N)
    (hc : 0 ≤ config.consumptionRate) :
    ∀ (l : List Agent) (st : List ℚ × ℚ),
      (∀ x ∈ st.1, 0 ≤ x) → (∀ a ∈ l, AgentInv N a) →
      (∀ x ∈ (mapAccum (lifeAgentStep config N) st l).1.1, 0 ≤ x) ∧
      (∀ a ∈ (mapAccum (lifeAgentStep config N) st l).2, AgentInv N a) := by
  intro l
  induction l with
  | nil =>
    intro st hg _
    exact ⟨hg, by simp [mapAccum]⟩
  | cons a as ih =>
    intro st hg hl
    have hstep := lifeAgentStep_inv hN hc st hg (hl a (by simp))
    have hrest := ih (lifeAgentStep config N st a).1 hstep.1
      (fun b hb => hl b (by simp [hb]))
    unfold mapAccum
    dsimp only
    refine ⟨hrest.1, ?_⟩
    intro b hb
    rcases List.mem_cons.mp hb with hrfl | hmem
    · rw [hrfl]; exact hstep.2
    · exact hrest.2 b hmem

theorem lifeFold_length (config : UserConfig) (N : ℕ) :
    ∀ (l : List Agent) (st : List ℚ × ℚ),
      (mapAccum (lifeAgentStep config N) st l).1.1.length = st.1.length := by
  intro l
  induction l with
  | nil => intro st; rfl
  | cons a as ih =>
    intro st
    unfold mapAccum
    dsimp only
    rw [ih]
    unfold lifeAgentStep
    dsimp only
    exact gridSet_length _ _ _

theorem randomFold_length (N : ℕ) :
    ∀ (l : List Agent) (st : (List ℚ × ℚ) × ℕ),
      (mapAccum (randomAgentStep N) st l).1.1.1.length = st.1.1.length := by
  intro l
  induction l with
  | nil => intro st; rfl
  | cons a as ih =>
    intro st
    unfold mapAccum
    dsimp only
    rw [ih, (randomAgentStep_props N st a).2.1]

/-! ## Death/reproduction phase lemmas -/

/-- Population characterisation of the death/reproduction phase: the
survivors are the non-dying agents in original order (halved when above
the reproduction threshold), the newborns are the halved copies of the
reproducing agents in order. -/
theorem lifePhase2_pop (N : ℕ) :
    ∀ (l : List Agent) (g : List ℚ),
      (lifePhase2 N l g).2.1
        = (l.filter (fun a => decide ((1:ℚ)/5 ≤ a.energy))).map
            (fun a => if 10 < a.energy then { a with energy := a.energy * (1/2) } else a) ∧
      (lifePhase2 N l g).2.2
        = (l.filter (fun a => decide ((10:ℚ) < a.energy))).map
            (fun a => { a with energy := a.energy * (1/2) }) := by
  intro l
  induction l with
  | nil => intro g; exact ⟨rfl, rfl⟩
  | cons a rest ih =>
    intro g
    unfold lifePhase2
    by_cases h1 : a.energy < 1/5
    · rw [if_pos h1]
      dsimp only
      have hp : ¬ ((fun b : Agent => decide ((1:ℚ)/5 ≤ b.energy)) a = true) := by
        simp only [decide_eq_true_eq]
        linarith
      have hq : ¬ ((fun b : Agent => decide ((10:ℚ) < b.energy)) a = true) := by
        simp only [decide_eq_true_eq]
        linarith
      rw [@List.filter_cons_of_neg _ _ a rest hp, @List.filter_cons_of_neg _ _ a rest hq]
      exact ih _
    · rw [if_neg h1]
      have hp : (fun b : Agent => decide ((1:ℚ)/5 ≤ b.energy)) a = true :=
        decide_eq_true (by linarith)
      by_cases h2 : (10:ℚ) < a.energy
      · rw [if_pos h2]
        dsimp only
        have hq : (fun b : Agent => decide ((10:ℚ) < b.energy)) a = true :=
          decide_eq_true h2
        rw [@List.filter_cons_of_pos _ _ a rest hp, @List.filter_cons_of_pos _ _ a rest hq,
            List.map_cons, List.map_cons]
        refine ⟨?_, ?_⟩
        · rw [if_pos h2, (ih g).1]
        · rw [(ih g).2]
      · rw [if_neg h2]
        dsimp only
        have hq : ¬ ((fun b : Agent => decide ((10:ℚ) < b.energy)) a = true) := by
          simp only [decide_eq_true_eq]
          exact h2
        rw [@List.filter_cons_of_pos _ _ a rest hp, @List.filter_cons_of_neg _ _ a rest hq,
            List.map_cons]
        refine ⟨?_, ?_⟩
        · rw [if_neg h2, (ih g).1]
        · rw [(ih g).2]

/-- Energy accounting of the death/reproduction phase: with every dying
agent's cell in range, the grid total plus the energies of survivors and
newborns equals the old grid total plus the old population's energies —
nothing is converted to heat. -/
theorem lifePhase2_sum (N : ℕ) :
    ∀ (l : List Agent) (g : List ℚ),
      (∀ a ∈ l, a.energy < 1/5 →
        0 ≤ agentCell N a ∧ (agentCell N a).toNat < g.length) →
      (lifePhase2 N l g).1.sum
        + (((lifePhase2 N l g).2.1).map Agent.energy).sum
        + (((lifePhase2 N l g).2.2).map Agent.energy).sum
      = g.sum + (l.map Agent.energy).sum := by
  intro l
  induction l with
  | nil => intro g _; simp [lifePhase2]
  | cons a rest ih =>
    intro g hb
    unfold lifePhase2
    by_cases h1 : a.energy < 1/5
    · rw [if_pos h1]
      have hcell := hb a (by simp) h1
      have hdep := gridDeposit_sum hcell.1 hcell.2 a.energy
      have hrest := ih (gridSet g (agentCell N a)
          (gridGet g (agentCell N a) + a.energy))
        (fun b hbmem hbe => by
          have := hb b (by simp [hbmem]) hbe
          rwa [gridSet_length])
      dsimp only
      rw [List.map_cons, List.sum_cons]
      rw [hrest, hdep]
      ring
    · rw [if_neg h1]
      have hrest := ih g (fun b hbmem hbe => hb b (by simp [hbmem]) hbe)
      by_cases h2 : (10:ℚ) < a.energy
      · rw [if_pos h2]
        simp only [List.map_cons, List.sum_cons]
        linarith [hrest]
      · rw [if_neg h2]
        simp only [List.map_cons, List.sum_cons]
        linarith [hrest]

theorem lifePhase2_length (N : ℕ) :
    ∀ (l : List Agent) (g : List ℚ), (lifePhase2 N l g).1.length = g.length := by
  intro l
  induction l with
  | nil => intro g; rfl
  | cons a rest ih =>
    intro g
    unfold lifePhase2
    by_cases h1 : a.energy < 1/5
    · rw [if_pos h1, ih, gridSet_length]
    · rw [if_neg h1]
      by_cases h2 : (10:ℚ) < a.energy
      · rw [if_pos h2]
        exact ih g
      · rw [if_neg h2]
        exact ih g

theorem lifePhase2_grid_nonneg (N : ℕ) :
    ∀ (l : List Agent) (g : List ℚ), (∀ x ∈ g, 0 ≤ x) → (∀ a ∈ l, 0 ≤ a.energy) →
      ∀ x ∈ (lifePhase2 N l g).1, 0 ≤ x := by
  intro l
  induction l with
  | nil => intro g hg _; exact hg
  | cons a rest ih =>
    intro g hg hl
    unfold lifePhase2
    by_cases h1 : a.energy < 1/5
    · rw [if_pos h1]
      exact ih _ (gridDeposit_nonneg hg (hl a (by simp)) _)
        (fun b hb => hl b (by simp [hb]))
    · rw [if_neg h1]
      by_cases h2 : (10:ℚ) < a.energy
      · rw [if_pos h2]
        exact ih g hg (fun b hb => hl b (by simp [hb]))
      · rw [if_neg h2]
        exact ih g hg (fun b hb => hl b (by simp [hb]))

theorem lifePhase2_agents_inv (N : ℕ) (l : List Agent) (g : List ℚ)
    (hl : ∀ a ∈ l, AgentInv N a) :
    ∀ a ∈ (lifePhase2 N l g).2.1 ++ (lifePhase2 N l g).2.2, AgentInv N a := by
  have hpop := lifePhase2_pop N l g
  intro b hb
  rw [List.mem_append, hpop.1, hpop.2] at hb
  rcases hb with hb | hb <;>
  · rw [List.mem_map] at hb
    obtain ⟨c, hc, rfl⟩ := hb
    have hcinv := hl c (List.mem_of_mem_filter hc)
    have hce := (List.mem_filter.mp hc).2
    obtain ⟨he, hrest⟩ := hcinv
    first
    | exact ⟨by linarith, hrest⟩
    | · by_cases h2 : (10:ℚ) < c.energy
        · rw [if_pos h2]
          exact ⟨by linarith, hrest⟩
        · rw [if_neg h2]
          exact ⟨he, hrest⟩

/-! ## Engine invariant and conservation -/

/-- The configuration domain on which the conservation law is proved:
a grid of at least `2×2`, non-negative inflow and consumption, and a
diffusion cap that is a fraction (`≤ 1`), as in §6 of the spec. -/
def ValidConfig (config : UserConfig) : Prop :=
  2 ≤ config.gridSize ∧ 0 ≤ config.inflowRate ∧
  0 ≤ config.consumptionRate ∧ config.diffusionCap ≤ 1

/-- The engine-state invariant maintained by `update`: a square grid of
non-negative cells, agents satisfying `AgentInv`, and a zero conservation
residual. -/
def EngineInv (N : ℕ) (s : EngineState) : Prop :=
  s.grid.length = N * N ∧
  (∀ v ∈ s.grid, 0 ≤ v) ∧
  (∀ a ∈ s.agents, AgentInv N a) ∧
  energyResidual s = 0

theorem updateRandom_props {config : UserConfig} {s : EngineState} {N : ℕ}
    (hN : 2 ≤ N) (hlen : s.grid.length = N * N)
    (hg : ∀ v ∈ s.grid, 0 ≤ v) (ha : ∀ a ∈ s.agents, AgentInv N a) :
    getTotalInternalEnergy (updateRandom config s) + (updateRandom config s).stepHeatAct
      = getTotalInternalEnergy s + s.stepHeatAct ∧
    (∀ v ∈ (updateRandom config s).grid, 0 ≤ v) ∧
    (∀ a ∈ (updateRandom config s).agents, AgentInv N a) ∧
    (updateRandom config s).grid.length = s.grid.length := by
  have hsq : Nat.sqrt s.grid.length = N := by rw [hlen, Nat.sqrt_eq]
  unfold updateRandom getTotalInternalEnergy
  dsimp only
  rw [hsq]
  have henergy := randomFold_energy N s.agents ((s.grid, s.stepHeatAct), s.rngRandom)
  have hinv := randomFold_inv hN s.agents ((s.grid, s.stepHeatAct), s.rngRandom) hg ha
  have hlength := randomFold_length N s.agents ((s.grid, s.stepHeatAct), s.rngRandom)
  exact ⟨by linarith, hinv.1, hinv.2, hlength⟩

theorem updateLife_props {config : UserConfig} {s : EngineState} {N : ℕ}
    (hN : 2 ≤ N) (hc : 0 ≤ config.consumptionRate) (hlen : s.grid.length = N * N)
    (hg : ∀ v ∈ s.grid, 0 ≤ v) (ha : ∀ a ∈ s.agents, AgentInv N a) :
    getTotalInternalEnergy (updateLife config s) + (updateLife config s).stepHeatAct
      = getTotalInternalEnergy s + s.stepHeatAct ∧
    (∀ v ∈ (updateLife config s).grid, 0 ≤ v) ∧
    (∀ a ∈ (updateLife config s).agents, AgentInv N a) ∧
    (updateLife config s).grid.length = s.grid.length := by
  have hsq : Nat.sqrt s.grid.length = N := by rw [hlen, Nat.sqrt_eq]
  have hN1 : 1 ≤ N := by omega
  -- phase 1
  have hph1E := lifeFold_energy config N hc s.agents (s.grid, s.stepHeatAct)
  have hph1I := lifeFold_inv hN1 hc s.agents (s.grid, s.stepHeatAct) hg ha
  have hph1L := lifeFold_length config N s.agents (s.grid, s.stepHeatAct)
  -- phase 2
  have hph2cell : ∀ a ∈ (mapAccum (lifeAgentStep config N) (s.grid, s.stepHeatAct)
      s.agents).2, a.energy < 1/5 →
      0 ≤ agentCell N a ∧ (agentCell N a).toNat <
        (mapAccum (lifeAgentStep config N) (s.grid, s.stepHeatAct) s.agents).1.1.length := by
    intro a hmem _
    have := agentCell_bounds (by omega : 0 < N) (hph1I.2 a hmem)
    rw [hph1L, hlen]
    exact this
  have hph2S := lifePhase2_sum N
    (mapAccum (lifeAgentStep config N) (s.grid, s.stepHeatAct) s.agents).2
    (mapAccum (lifeAgentStep config N) (s.grid, s.stepHeatAct) s.agents).1.1 hph2cell
  have hph2L := lifePhase2_length N
    (mapAccum (lifeAgentStep config N) (s.grid, s.stepHeatAct) s.agents).2
    (mapAccum (lifeAgentStep config N) (s.grid, s.stepHeatAct) s.agents).1.1
  have hph2G := lifePhase2_grid_nonneg N
    (mapAccum (lifeAgentStep config N) (s.grid, s.stepHeatAct) s.agents).2
    (mapAccum (lifeAgentStep config N) (s.grid, s.stepHeatAct) s.agents).1.1
    hph1I.1 (fun a hamem => (hph1I.2 a hamem).1)
  have hph2A := lifePhase2_agents_inv N
    (mapAccum (lifeAgentStep config N) (s.grid, s.stepHeatAct) s.agents).2
    (mapAccum (lifeAgentStep config N) (s.grid, s.stepHeatAct) s.agents).1.1
    hph1I.2
  unfold updateLife getTotalInternalEnergy
  dsimp only
  rw [hsq]
  refine ⟨?_, hph2G, hph2A, by rw [hph2L, hph1L]⟩
  rw [List.map_append, List.sum_append]
  linarith

theorem center_idx_lt {N : ℕ} (hN : 2 ≤ N) : (N / 2) * N + N / 2 < N * N := by
  have h1 : N / 2 ≤ N - 1 := by omega
  have h2 : (N / 2) * N ≤ (N - 1) * N := Nat.mul_le_mul_right _ h1
  have h3 : (N - 1) * N + N = N * N := by
    have hN1 : N - 1 + 1 = N := by omega
    calc (N - 1) * N + N = ((N - 1) + 1) * N := by ring
      _ = N * N := by rw [hN1]
  calc (N / 2) * N + N / 2 ≤ (N - 1) * N + (N - 1) := Nat.add_le_add h2 h1
    _ < (N - 1) * N + N := Nat.add_lt_add_left (by omega) _
    _ = N * N := h3

theorem updateRandom_cumulativeHeat (config : UserConfig) (s : EngineState) :
    (updateRandom config s).cumulativeHeat = s.cumulativeHeat := rfl

theorem updateRandom_stepHeatDiff (config : UserConfig) (s : EngineState) :
    (updateRandom config s).stepHeatDiff = s.stepHeatDiff := rfl

theorem updateRandom_initialStock (config : UserConfig) (s : EngineState) :
    (updateRandom config s).initialStock = s.initialStock := rfl

theorem updateRandom_totalInflow (config : UserConfig) (s : EngineState) :
    (updateRandom config s).totalInflow = s.totalInflow := rfl

theorem updateLife_cumulativeHeat (config : UserConfig) (s : EngineState) :
    (updateLife config s).cumulativeHeat = s.cumulativeHeat := rfl

theorem updateLife_stepHeatDiff (config : UserConfig) (s : EngineState) :
    (updateLife config s).stepHeatDiff = s.stepHeatDiff := rfl

theorem updateLife_initialStock (config : UserConfig) (s : EngineState) :
    (updateLife config s).initialStock = s.initialStock := rfl

theorem updateLife_totalInflow (config : UserConfig) (s : EngineState) :
    (updateLife config s).totalInflow = s.totalInflow := rfl

/-- One `update` call preserves the engine invariant and returns a zero
`energyError`: the conservation law holds exactly at every tick boundary
in the exact-arithmetic model. -/
theorem update_preserves {config : UserConfig} (mode : Mode) {s : EngineState}
    (hvc : ValidConfig config) (hinv : EngineInv config.gridSize s) :
    EngineInv config.gridSize (update config mode s).1 ∧
    (update config mode s).2.energyError = 0 := by
  obtain ⟨hN2, hinflow, hcons, hcap⟩ := hvc
  obtain ⟨hlen, hg, ha, hres⟩ := hinv
  unfold energyResidual getTotalInternalEnergy at hres
  have hc0 : (0:ℤ) ≤ (((config.gridSize / 2) * config.gridSize + config.gridSize / 2 : ℕ) : ℤ) := by
    positivity
  have hcN : ((((config.gridSize / 2) * config.gridSize + config.gridSize / 2 : ℕ)) : ℤ).toNat
      < s.grid.length := by
    rw [hlen, Int.toNat_natCast]
    exact center_idx_lt hN2
  -- the grid after inflow
  have hg1sum : (gridSet s.grid
      (((config.gridSize / 2) * config.gridSize + config.gridSize / 2 : ℕ) : ℤ)
      (gridGet s.grid (((config.gridSize / 2) * config.gridSize + config.gridSize / 2 : ℕ) : ℤ)
        + config.inflowRate)).sum = s.grid.sum + config.inflowRate :=
    gridDeposit_sum hc0 hcN _
  have hg1nn := gridDeposit_nonneg hg hinflow
    (((config.gridSize / 2) * config.gridSize + config.gridSize / 2 : ℕ) : ℤ)
  have hg1len : (gridSet s.grid
      (((config.gridSize / 2) * config.gridSize + config.gridSize / 2 : ℕ) : ℤ)
      (gridGet s.grid (((config.gridSize / 2) * config.gridSize + config.gridSize / 2 : ℕ) : ℤ)
        + config.inflowRate)).length = s.grid.length := gridSet_length _ _ _
  -- abbreviate the post-inflow grid
  generalize hG1 : gridSet s.grid
      (((config.gridSize / 2) * config.gridSize + config.gridSize / 2 : ℕ) : ℤ)
      (gridGet s.grid (((config.gridSize / 2) * config.gridSize + config.gridSize / 2 : ℕ) : ℤ)
        + config.inflowRate) = g1 at hg1sum hg1nn hg1len
  -- the grid after diffusion
  have hdcons := applyStrictDiffusion_conserves config.diffusionSpeed config.diffusionCap
    g1 hcap hg1nn
  have hdnn := applyStrictDiffusion_nonneg config.diffusionSpeed config.diffusionCap g1
  have hdlen := applyStrictDiffusion_length config.diffusionSpeed config.diffusionCap g1
  cases mode with
  | off =>
    unfold update EngineInv energyResidual getTotalInternalEnergy
    dsimp only
    rw [hG1]
    constructor
    · refine ⟨by rw [hdlen, hg1len, hlen], hdnn, ha, ?_⟩
      linarith
    · linarith
  | random =>
    unfold update EngineInv energyResidual getTotalInternalEnergy
    dsimp only
    rw [hG1]
    have hprops := @updateRandom_props config
      { s with grid := (applyStrictDiffusion config.diffusionSpeed config.diffusionCap g1).1,
               stepHeatDiff := 0 + (applyStrictDiffusion config.diffusionSpeed config.diffusionCap g1).2,
               stepHeatAct := 0,
               totalInflow := s.totalInflow + config.inflowRate }
      config.gridSize hN2 (by dsimp only; rw [hdlen, hg1len, hlen]) (by dsimp only; exact hdnn)
      (by dsimp only; exact ha)
    unfold getTotalInternalEnergy at hprops
    dsimp only at hprops
    simp only [updateRandom_cumulativeHeat, updateRandom_stepHeatDiff,
      updateRandom_initialStock, updateRandom_totalInflow]
    obtain ⟨hpE, hpG, hpA, hpL⟩ := hprops
    constructor
    · refine ⟨by rw [hpL, hdlen, hg1len, hlen], hpG, hpA, ?_⟩
      linarith
    · linarith
  | life =>
    unfold update EngineInv energyResidual getTotalInternalEnergy
    dsimp only
    rw [hG1]
    have hprops := @updateLife_props config
      { s with grid := (applyStrictDiffusion config.diffusionSpeed config.diffusionCap g1).1,
               stepHeatDiff := 0 + (applyStrictDiffusion config.diffusionSpeed config.diffusionCap g1).2,
               stepHeatAct := 0,
               totalInflow := s.totalInflow + config.inflowRate }
      config.gridSize hN2 hcons (by dsimp only; rw [hdlen, hg1len, hlen]) (by dsimp only; exact hdnn)
      (by dsimp only; exact ha)
    unfold getTotalInternalEnergy at hprops
    dsimp only at hprops
    simp only [updateLife_cumulativeHeat, updateLife_stepHeatDiff,
      updateLife_initialStock, updateLife_totalInflow]
    obtain ⟨hpE, hpG, hpA, hpL⟩ := hprops
    constructor
    · refine ⟨by rw [hpL, hdlen, hg1len, hlen], hpG, hpA, ?_⟩
      linarith
    · linarith

theorem genAgents_inv {size : ℕ} (hsize : 1 ≤ size) :
    ∀ (n : ℕ) (st : ℕ), ∀ a ∈ (genAgents size n st).1, AgentInv size a := by
  intro n
  induction n with
  | zero =>
    intro st a ha
    simp [genAgents] at ha
  | succ m ih =>
    intro st a ha
    unfold genAgents at ha
    dsimp only at ha
    have hsR : (0:ℝ) < (size : ℝ) := by exact_mod_cast hsize
    rcases List.mem_cons.mp ha with hrfl | hmem
    · subst hrfl
      have hb1 := mulberryStep_val_bounds st
      have hb2 := mulberryStep_val_bounds (mulberryStep st).1
      have hx0 : (0:ℚ) ≤ (mulberryStep st).2 * size := by
        apply mul_nonneg hb1.1
        positivity
      have hxN : (mulberryStep st).2 * size < size := by
        have := mul_lt_mul_of_pos_right hb1.2 (by exact_mod_cast hsize : (0:ℚ) < size)
        simpa using this
      have hy0 : (0:ℚ) ≤ (mulberryStep (mulberryStep st).1).2 * size := by
        apply mul_nonneg hb2.1
        positivity
      have hyN : (mulberryStep (mulberryStep st).1).2 * size < size := by
        have := mul_lt_mul_of_pos_right hb2.2 (by exact_mod_cast hsize : (0:ℚ) < size)
        simpa using this
      refine ⟨by norm_num, ?_, ?_, ?_, ?_, ?_, ?_⟩ <;>
        simp only [Q2.toReal_ofRat, Q2.toReal_zero]
      · exact_mod_cast hx0
      · exact_mod_cast hxN
      · exact_mod_cast hy0
      · exact_mod_cast hyN
      · norm_num
      · norm_num
    · exact ih _ a hmem

/-- `importState` applied to a freshly generated master state establishes
the engine invariant (in particular the residual starts at exactly `0`). -/
theorem importState_inv {config : UserConfig} (mode : Mode) (hN : 2 ≤ config.gridSize) :
    EngineInv config.gridSize
      (importState config.seed (generateMasterState config) mode) := by
  unfold EngineInv importState generateMasterState energyResidual getTotalInternalEnergy
  refine ⟨by rw [List.length_map, List.length_range], ?_, ?_, by ring⟩
  · intro v hv
    rw [List.mem_map] at hv
    obtain ⟨i, _, rfl⟩ := hv
    dsimp only
    split_ifs <;> norm_num
  · intro a ha
    by_cases hmode : mode = Mode.off
    · rw [if_pos hmode] at ha
      simp at ha
    · rw [if_neg hmode] at ha
      exact genAgents_inv (by omega) config.initialAgents config.seed a ha

/-- The engine invariant holds at every tick boundary of a run started
from `importState` of a generated master state. -/
theorem tick_inv {config : UserConfig} (mode : Mode) (hvc : ValidConfig config) :
    ∀ n : ℕ, EngineInv config.gridSize (tickState config mode n) := by
  intro n
  induction n with
  | zero => exact importState_inv mode hvc.1
  | succ m ih => exact (update_preserves mode hvc ih).1

/-! ## Selection-loop lemmas (chemotaxis) -/

theorem selLoop_stay {α : Type} :
    ∀ (l : List (α × ℚ)) (b : Option α) (m : ℚ),
      (∀ p ∈ l, p.2 ≤ m) → selLoop l (b, m) = (b, m) := by
  intro l
  induction l with
  | nil => intro b m _; rfl
  | cons p rest ih =>
    intro b m h
    obtain ⟨i, e⟩ := p
    unfold selLoop
    rw [if_neg (by have := h (i, e) (by simp); dsimp only at this; linarith)]
    exact ih b m (fun q hq => h q (by simp [hq]))

/-- Characterisation of the chemotaxis selection fold on a zipped list of
labels and energies: if some energy exceeds the running maximum `m`, the
final winner is the earliest index achieving the overall maximum. -/
theorem selLoopZip_spec {α : Type} :
    ∀ (xs : List α) (ys : List ℚ) (b : Option α) (m : ℚ),
      xs.length = ys.length →
      (∃ e ∈ ys, m < e) →
      ∃ (k : ℕ) (hk : k < ys.length) (hk' : k < xs.length),
        selLoop (xs.zip ys) (b, m) = (some (xs.get ⟨k, hk'⟩), ys.get ⟨k, hk⟩) ∧
        m < ys.get ⟨k, hk⟩ ∧
        (∀ j (hj : j < ys.length), j < k → ys.get ⟨j, hj⟩ < ys.get ⟨k, hk⟩) ∧
        (∀ j (hj : j < ys.length), ys.get ⟨j, hj⟩ ≤ ys.get ⟨k, hk⟩) := by
  intro xs
  induction xs with
  | nil =>
    intro ys b m hlen hex
    cases ys with
    | nil => simp at hex
    | cons e ys' => simp at hlen
  | cons x xs ih =>
    intro ys b m hlen hex
    cases ys with
    | nil => simp at hlen
    | cons e ys' =>
      have hlen' : xs.length = ys'.length := by simpa using hlen
      have hzip : (x :: xs).zip (e :: ys') = (x, e) :: xs.zip ys' := rfl
      rw [hzip]
      by_cases hme : m < e
      · have hstep : selLoop ((x, e) :: xs.zip ys') (b, m)
            = selLoop (xs.zip ys') (some x, e) := by
          simp only [selLoop]
          rw [if_pos hme]
        by_cases hex' : ∃ e' ∈ ys', e < e'
        · obtain ⟨k, hk, hk', heq, hgt, hfirst, hmax⟩ := ih ys' (some x) e hlen' hex'
          refine ⟨k + 1, by simpa using Nat.succ_lt_succ hk,
            by simpa using Nat.succ_lt_succ hk', ?_, ?_, ?_, ?_⟩
          · rw [hstep, heq]
            rfl
          · have : m < e := hme
            have h2 : e < ys'.get ⟨k, hk⟩ := hgt
            calc m < e := this
              _ < ys'.get ⟨k, hk⟩ := h2
          · intro j hj hjk
            cases j with
            | zero =>
              exact hgt
            | succ j' =>
              have hj' : j' < ys'.length := by simpa using hj
              exact hfirst j' hj' (by omega)
          · intro j hj
            cases j with
            | zero =>
              exact le_of_lt hgt
            | succ j' =>
              have hj' : j' < ys'.length := by simpa using hj
              exact hmax j' hj'
        · push_neg at hex'
          have hstay : selLoop (xs.zip ys') (some x, e) = (some x, e) := by
            apply selLoop_stay
            intro p hp
            have hmem : p.2 ∈ ys' := by
              rcases List.mem_zip hp with ⟨_, h2⟩
              exact h2
            exact hex' p.2 hmem
          refine ⟨0, by simp, by simp, ?_, hme, ?_, ?_⟩
          · rw [hstep, hstay]
            rfl
          · intro j hj hjk
            omega
          · intro j hj
            cases j with
            | zero => exact le_refl _
            | succ j' =>
              have hj' : j' < ys'.length := by simpa using hj
              exact hex' _ (ys'.get_mem _ _)
      · have hstep : selLoop ((x, e) :: xs.zip ys') (b, m)
            = selLoop (xs.zip ys') (b, m) := by
          simp only [selLoop]
          rw [if_neg hme]
        have hex'' : ∃ e' ∈ ys', m < e' := by
          obtain ⟨e'', hmem, hgt⟩ := hex
          rcases List.mem_cons.mp hmem with hrfl | hmem'
          · exact absurd (hrfl ▸ hgt) hme
          · exact ⟨e'', hmem', hgt⟩
        obtain ⟨k, hk, hk', heq, hgt, hfirst, hmax⟩ := ih ys' b m hlen' hex''
        have hemax : e ≤ m := le_of_not_lt hme
        refine ⟨k + 1, by simpa using Nat.succ_lt_succ hk,
          by simpa using Nat.succ_lt_succ hk', ?_, ?_, ?_, ?_⟩
        · rw [hstep, heq]
          rfl
        · exact hgt
        · intro j hj hjk
          cases j with
          | zero =>
            calc e ≤ m := hemax
              _ < ys'.get ⟨k, hk⟩ := hgt
          | succ j' =>
            have hj' : j' < ys'.length := by simpa using hj
            exact hfirst j' hj' (by omega)
        · intro j hj
          cases j with
          | zero =>
            calc e ≤ m := hemax
              _ ≤ ys'.get ⟨k, hk⟩ := le_of_lt hgt
          | succ j' =>
            have hj' : j' < ys'.length := by simpa using hj
            exact hmax j' hj'

/-! ## Sweep-loop lemmas -/

theorem sweepLoop_spec (f g h : ℕ → EngineStepStats) :
    ∀ (l : List ℕ) (acc : SweepAcc),
      (l.foldl (fun a t => sweepTick a t (f t) (g t) (h t)) acc).n
        = acc.n + (l.filter (fun t => decide (SWEEP_BURN_IN ≤ t))).length ∧
      (l.foldl (fun a t => sweepTick a t (f t) (g t) (h t)) acc).sumOff
        = acc.sumOff + ((l.filter (fun t => decide (SWEEP_BURN_IN ≤ t))).map
            (fun t => (f t).deltaHeat)).sum ∧
      (l.foldl (fun a t => sweepTick a t (f t) (g t) (h t)) acc).sumLife
        = acc.sumLife + ((l.filter (fun t => decide (SWEEP_BURN_IN ≤ t))).map
            (fun t => (h t).deltaHeat)).sum ∧
      (l.foldl (fun a t => sweepTick a t (f t) (g t) (h t)) acc).sumAgentsLife
        = acc.sumAgentsLife + ((l.filter (fun t => decide (SWEEP_BURN_IN ≤ t))).map
            (fun t => ((h t).agentCount : ℚ))).sum := by
  intro l
  induction l with
  | nil => intro acc; exact ⟨rfl, by simp, by simp, by simp⟩
  | cons t rest ih =>
    intro acc
    rw [List.foldl_cons]
    by_cases ht : SWEEP_BURN_IN ≤ t
    · have hp : (fun u => decide (SWEEP_BURN_IN ≤ u)) t = true := decide_eq_true ht
      rw [@List.filter_cons_of_pos _ _ t rest hp]
      have hstep : sweepTick acc t (f t) (g t) (h t)
          = { n := acc.n + 1
              sumOff := acc.sumOff + (f t).deltaHeat
              sumLife := acc.sumLife + (h t).deltaHeat
              sumLifeDiff := acc.sumLifeDiff + (h t).heatDiff
              sumLifeAct := acc.sumLifeAct + (h t).heatAct
              sumAgentsLife := acc.sumAgentsLife + (h t).agentCount
              sumAgentsRand := acc.sumAgentsRand + (g t).agentCount
              errLifeMin := min acc.errLifeMin (WithTop.some (h t).energyError)
              errLifeMax := max acc.errLifeMax (WithBot.some (h t).energyError) } := by
        unfold sweepTick
        rw [if_pos ht]
      rw [hstep]
      obtain ⟨ih1, ih2, ih3, ih4⟩ := ih _
      refine ⟨?_, ?_, ?_, ?_⟩
      · rw [ih1]
        dsimp only
        simp [List.length_cons]
        omega
      · rw [ih2]
        dsimp only
        rw [List.map_cons, List.sum_cons]
        ring
      · rw [ih3]
        dsimp only
        rw [List.map_cons, List.sum_cons]
        ring
      · rw [ih4]
        dsimp only
        rw [List.map_cons, List.sum_cons]
        ring
    · have hp : ¬ ((fun u => decide (SWEEP_BURN_IN ≤ u)) t = true) := by
        simp only [decide_eq_true_eq]
        exact ht
      rw [@List.filter_cons_of_neg _ _ t rest hp]
      have hstep : sweepTick acc t (f t) (g t) (h t) = acc := by
        unfold sweepTick
        rw [if_neg ht]
      rw [hstep]
      exact ih acc

set_option maxRecDepth 4000 in
theorem measuredTicks_length : measuredTicks.length = 300 := by decide

theorem genAgents_length (size : ℕ) : ∀ (n st : ℕ), (genAgents size n st).1.length = n := by
  intro n
  induction n with
  | zero => intro st; rfl
  | succ m ih =>
    intro st
    unfold genAgents
    dsimp only
    rw [List.length_cons, ih]

/-! ## Concrete-evaluation helpers

`Nat.sqrt` (used for the grid side length and inside `Q2.floor`) is
defined by well-founded recursion and does not reduce definitionally, so
concrete instances are certified through `Nat.eq_sqrt`; rational
arithmetic on concrete values is evaluated by `norm_num`. -/

theorem sqrt_val {n r : ℕ} (h1 : r * r ≤ n) (h2 : n < (r + 1) * (r + 1)) :
    Nat.sqrt n = r := (Nat.eq_sqrt.mpr ⟨h1, h2⟩).symm

theorem sqrt_gridCE : Nat.sqrt gridCE.length = 2 := by
  rw [show gridCE.length = 4 from rfl]
  exact sqrt_val (by norm_num) (by norm_num)

theorem diffPairs_two : diffPairs 2 = [(0, 1), (0, 2), (1, 3), (2, 3)] := rfl

theorem one_lt_sqrt_two : (1:ℝ) < Real.sqrt 2 := by
  have h := Real.sq_sqrt (by norm_num : (0:ℝ) ≤ 2)
  have hnn := Real.sqrt_nonneg 2
  nlinarith

theorem sqrt_two_lt_two : Real.sqrt 2 < 2 := by
  have h := Real.sq_sqrt (by norm_num : (0:ℝ) ≤ 2)
  have hnn := Real.sqrt_nonneg 2
  nlinarith

theorem floor_eq_of_bounds (x : Q2) (z : ℤ)
    (h1 : (z : ℝ) ≤ Q2.toReal x) (h2 : Q2.toReal x < (z : ℝ) + 1) :
    Q2.floor x = z := by
  have hb := Q2.floor_bounds x
  have ha2 : Q2.floor x < z + 1 := by exact_mod_cast lt_of_le_of_lt hb.1 h2
  have hc2 : z < Q2.floor x + 1 := by exact_mod_cast lt_of_le_of_lt h1 hb.2
  omega

theorem floor_six : Q2.floor ⟨6, 0⟩ = 6 :=
  floor_eq_of_bounds _ _ (by norm_num [Q2.toReal_mk]) (by norm_num [Q2.toReal_mk])

theorem floor_four : Q2.floor ⟨4, 0⟩ = 4 :=
  floor_eq_of_bounds _ _ (by norm_num [Q2.toReal_mk]) (by norm_num [Q2.toReal_mk])

theorem floor_two : Q2.floor ⟨2, 0⟩ = 2 :=
  floor_eq_of_bounds _ _ (by norm_num [Q2.toReal_mk]) (by norm_num [Q2.toReal_mk])

theorem floor_half : Q2.floor ⟨1/2, 0⟩ = 0 :=
  floor_eq_of_bounds _ _ (by norm_num [Q2.toReal_mk]) (by norm_num [Q2.toReal_mk])

theorem floor_four_p : Q2.floor ⟨4, 1⟩ = 5 :=
  floor_eq_of_bounds _ _
    (by simp only [Q2.toReal_mk]; push_cast; nlinarith [one_lt_sqrt_two])
    (by simp only [Q2.toReal_mk]; push_cast; nlinarith [sqrt_two_lt_two])

theorem floor_four_m : Q2.floor ⟨4, -1⟩ = 2 :=
  floor_eq_of_bounds _ _
    (by simp only [Q2.toReal_mk]; push_cast; nlinarith [sqrt_two_lt_two])
    (by simp only [Q2.toReal_mk]; push_cast; nlinarith [one_lt_sqrt_two])

theorem gridGet_uniform (i : ℤ) (h1 : 0 ≤ i) (h2 : i.toNat < 64) :
    gridGet uniformGrid i = 1 := by
  unfold gridGet uniformGrid
  rw [if_pos h1, List.getD_eq_getElem _ _ (by simpa using h2), List.getElem_replicate]

theorem Q2.add_def (x y : Q2) : x + y = ⟨x.a + y.a, x.b + y.b⟩ := rfl

/-- All 8 chemotaxis samples of `agentNorth` on `uniformGrid` equal `1`
(the scan is a tie). -/
theorem sampleIdx_agentNorth :
    ∀ i : Fin 8, gridGet uniformGrid (sampleIdx 8 agentNorth i) = 1 := by
  intro i
  fin_cases i <;>
    norm_num [sampleIdx, agentNorth, cos8, sin8, Q2.scale, Q2.add_def,
      floor_six, floor_four, floor_two, floor_four_p, floor_four_m] <;>
    decide

/-- The chemotaxis selection always picks the first index attaining the
maximum sample (the `-1` sentinel loses to every sample of a non-negative
grid, so the initial `atan2`-based candidate is never kept). -/
theorem chemotaxis_argmax (g : List ℚ) (N : ℕ) (a : Agent)
    (hnn : ∀ v ∈ g, 0 ≤ v) :
    ∃ i : Fin 8,
      chemotaxisHeading g N a = (cos8 i, sin8 i) ∧
      (∀ j : Fin 8, gridGet g (sampleIdx N a j) ≤ gridGet g (sampleIdx N a i)) ∧
      (∀ j : Fin 8, (j : ℕ) < (i : ℕ) →
        gridGet g (sampleIdx N a j) < gridGet g (sampleIdx N a i)) := by
  have hlen8 : (chemotaxisSamples g N a).length = 8 := by
    simp [chemotaxisSamples]
  have hlen : (List.finRange 8).length = (chemotaxisSamples g N a).length := by
    simp [hlen8]
  have hget : ∀ (j : ℕ) (hj : j < (chemotaxisSamples g N a).length) (h8 : j < 8),
      (chemotaxisSamples g N a).get ⟨j, hj⟩ = gridGet g (sampleIdx N a ⟨j, h8⟩) := by
    intro j hj h8
    simp only [chemotaxisSamples, List.get_eq_getElem, List.getElem_map,
      List.getElem_finRange]
    rfl
  have hsnn : ∀ v ∈ chemotaxisSamples g N a, 0 ≤ v := by
    intro v hv
    obtain ⟨i, _, rfl⟩ := List.mem_map.mp hv
    exact gridGet_nonneg hnn _
  have h0lt : 0 < (chemotaxisSamples g N a).length := by rw [hlen8]; norm_num
  have hex : ∃ e ∈ chemotaxisSamples g N a, (-1 : ℚ) < e := by
    refine ⟨(chemotaxisSamples g N a).get ⟨0, h0lt⟩, List.get_mem _ _ h0lt, ?_⟩
    have := hsnn _ (List.get_mem _ _ h0lt)
    linarith
  obtain ⟨k, hk, hk', heq, _, hfirst, hmax⟩ :=
    selLoopZip_spec (List.finRange 8) (chemotaxisSamples g N a) none (-1) hlen hex
  have hk8 : k < 8 := by rw [hlen8] at hk; exact hk
  refine ⟨⟨k, hk8⟩, ?_, ?_, ?_⟩
  · show chemotaxisHeading g N a = (cos8 ⟨k, hk8⟩, sin8 ⟨k, hk8⟩)
    unfold chemotaxisHeading
    dsimp only
    rw [heq]
    rw [List.get_finRange]
  · intro j
    have hj : (j : ℕ) < (chemotaxisSamples g N a).length := by
      rw [hlen8]; exact j.isLt
    have h := hmax j hj
    rw [hget j hj j.isLt, hget k hk hk8] at h
    simpa using h
  · intro j hjk
    have hj : (j : ℕ) < (chemotaxisSamples g N a).length := by
      rw [hlen8]; exact j.isLt
    have h := hfirst j hj hjk
    rw [hget j hj j.isLt, hget k hk hk8] at h
    simpa using h

theorem eval_strict_cap1 : applyStrictDiffusion 1 1 gridCE = ([9/4, 5, 0, 9/4], 1/2) := by
  simp only [applyStrictDiffusion]
  rw [sqrt_gridCE, diffPairs_two]
  simp only [List.foldl_cons, List.foldl_nil]
  norm_num [diffPairStep, gridCE, clampNonNeg, min_def, abs]

theorem eval_gs_cap1 :
    applyDiffusionGS 1 1 gridCE = ([27/16, 45/8, 4941/6400, 891/640], 3349/6400) := by
  simp only [applyDiffusionGS]
  rw [sqrt_gridCE, diffPairs_two]
  simp only [List.foldl_cons, List.foldl_nil]
  norm_num [diffPairStepGS, gridCE, clampNonNeg, min_def, abs]

theorem eval_strict_cap5 :
    applyStrictDiffusion 1 (1/5) gridCE = ([9/5, 32/5, 0, 36/25], 9/25) := by
  simp only [applyStrictDiffusion]
  rw [sqrt_gridCE, diffPairs_two]
  simp only [List.foldl_cons, List.foldl_nil]
  norm_num [diffPairStep, gridCE, clampNonNeg, min_def, abs]

theorem eval_jacobi_cap5 :
    applyDiffusionJacobi 1 (1/5) gridCE = ([9/5, 6, 0, 9/5], 2/5) := by
  simp only [applyDiffusionJacobi]
  rw [sqrt_gridCE, diffPairs_two]
  simp only [List.foldl_cons, List.foldl_nil]
  norm_num [diffPairStepJacobi, gridCE, clampNonNeg, min_def, abs]

/-! # The claims -/

/-- C7: master-state generation is deterministic — identical arguments
yield identical grids and agent lists — and the grid involves no RNG at
all: it is independent of the seed, being exactly the pure function
`masterGrid` of `(gridSize, initialSpread)` (15 inside the spread radius,
1 outside). -/
theorem C7_master_determinism (config : UserConfig) (s1 s2 : ℕ) :
    generateMasterState config = generateMasterState config ∧
    (generateMasterState { config with seed := s1 }).grid
      = (generateMasterState { config with seed := s2 }).grid ∧
    (generateMasterState config).grid = masterGrid config.gridSize config.initialSpread :=
  ⟨rfl, rfl, rfl⟩

/-- C9: the random-mode agent update neither kills nor creates agents:
the population keeps exactly the same length, and the agents are the same
ones in the same order — their headings `(vx, vy)` are untouched, only
positions and energies change. -/
theorem C9_random_population_frame (config : UserConfig) (s : EngineState) :
    (updateRandom config s).agents.length = s.agents.length ∧
    (updateRandom config s).agents.map (fun a => (a.vx, a.vy))
      = s.agents.map (fun a => (a.vx, a.vy)) := by
  unfold updateRandom
  dsimp only
  exact ⟨mapAccum_length _ _ _, randomFold_headings _ _ _⟩

/-- C6 counterexample: the claim says `classify` returns `invalid` whenever
any of its inputs is non-finite, but a `NaN` third argument (agent
average) with finite heat averages is classified `suppressor`, not
`invalid` — only the first two arguments are finiteness-checked. -/
theorem C6_counterexample :
    classify (JSNum.fin 1) (JSNum.fin 2) JSNum.nan = SweepStatus.suppressor ∧
    SweepStatus.suppressor ≠ SweepStatus.invalid := by
  constructor
  · decide
  · decide

/-- C6 amended: `classify` returns `invalid` iff `avgLife` or `avgOff` is
non-finite (the `avgAgents` argument is not finiteness-checked); otherwise
`dead` when `avgAgents < 1` (with JS `NaN < 1` false), else `suppressor`
when `avgLife < avgOff`, else `accelerator` — i.e. it agrees everywhere
with the pattern-matching reference `classifySpec`. -/
theorem C6_classify_cases (a o g : JSNum) : classify a o g = classifySpec a o g := by
  cases a <;> cases o <;>
    simp [classify, classifySpec, JSNum.isFinite, JSNum.lt]

/-- C1: for every engine instance (any mode, any valid configuration,
started by `importState` of a generated master state) and every tick
boundary, the sum of all grid cells plus all agent energies plus the
cumulative heat equals the initial stock plus the total inflow — exactly,
in the exact-arithmetic model (the float program tracks this identity up
to rounding) — and the `energyError` returned by every `update` call is
exactly the residual of this identity and equals `0`. -/
theorem C1_conservation_invariant (config : UserConfig) (mode : Mode)
    (hvc : ValidConfig config) (n : ℕ) :
    getTotalInternalEnergy (tickState config mode n)
        + (tickState config mode n).cumulativeHeat
      = (tickState config mode n).initialStock
        + (tickState config mode n).totalInflow ∧
    (tickStats config mode n).energyError = 0 := by
  have h1 := (tick_inv mode hvc n).2.2.2
  have h2 := (update_preserves mode hvc (tick_inv mode hvc n)).2
  unfold energyResidual at h1
  exact ⟨by linarith, h2⟩

theorem C1_conservation_invariant_witness :
    getTotalInternalEnergy (tickState cfgW Mode.life 2)
        + (tickState cfgW Mode.life 2).cumulativeHeat
      = (tickState cfgW Mode.life 2).initialStock
        + (tickState cfgW Mode.life 2).totalInflow ∧
    (tickStats cfgW Mode.life 2).energyError = 0 :=
  C1_conservation_invariant cfgW Mode.life
    ⟨by norm_num [cfgW], by norm_num [cfgW], by norm_num [cfgW], by norm_num [cfgW]⟩ 2

/-- C8: after every diffusion step, every grid cell is non-negative
(unconditionally — the scan ends with a clamp), and along every engine run
under a valid configuration the grid never holds a negative cell at any
tick boundary. -/
theorem C8_grid_nonneg (speed cap : ℚ) (g : List ℚ) (config : UserConfig)
    (mode : Mode) (hvc : ValidConfig config) (n : ℕ) :
    (∀ x ∈ (applyStrictDiffusion speed cap g).1, 0 ≤ x) ∧
    (∀ v ∈ (tickState config mode n).grid, 0 ≤ v) :=
  ⟨applyStrictDiffusion_nonneg speed cap g, (tick_inv mode hvc n).2.1⟩

theorem C8_grid_nonneg_witness :
    0 ≤ (applyStrictDiffusion 1 1 gridCE).1.getD 0 0 ∧
    0 ≤ (tickState cfgW Mode.life 1).grid.getD 0 0 := by
  have hvc : ValidConfig cfgW :=
    ⟨by norm_num [cfgW], by norm_num [cfgW], by norm_num [cfgW], by norm_num [cfgW]⟩
  have h := C8_grid_nonneg 1 1 gridCE cfgW Mode.life hvc 1
  have hl1 : 0 < (applyStrictDiffusion 1 1 gridCE).1.length := by
    rw [applyStrictDiffusion_length]
    norm_num [gridCE]
  have hl2 : 0 < (tickState cfgW Mode.life 1).grid.length := by
    rw [(tick_inv Mode.life hvc 1).1]
    norm_num [cfgW]
  constructor
  · rw [List.getD_eq_getElem _ _ hl1]
    exact h.1 _ (List.getElem_mem hl1)
  · rw [List.getD_eq_getElem _ _ hl2]
    exact h.2 _ (List.getElem_mem hl2)

/-- C10: agent energies are non-negative at every tick boundary in every
mode: each cost deduction pays only `min(energy, cost)`, and feeding from
the (clamped, hence non-negative) grid only adds energy, so an agent
starting from non-negative energy never goes negative — in particular a
dying agent always returns a non-negative amount to the grid. -/
theorem C10_energy_nonneg (config : UserConfig) (mode : Mode)
    (hvc : ValidConfig config) (n : ℕ) :
    ∀ a ∈ (tickState config mode n).agents, 0 ≤ a.energy :=
  fun a ha => ((tick_inv mode hvc n).2.2.1 a ha).1

theorem C10_energy_nonneg_witness :
    0 ≤ ((tickState cfgW Mode.life 0).agents.getD 0 agentNorth).energy := by
  have hvc : ValidConfig cfgW :=
    ⟨by norm_num [cfgW], by norm_num [cfgW], by norm_num [cfgW], by norm_num [cfgW]⟩
  have h := C10_energy_nonneg cfgW Mode.life hvc 0
  have hl : 0 < (tickState cfgW Mode.life 0).agents.length := by
    show 0 < (importState cfgW.seed (generateMasterState cfgW) Mode.life).agents.length
    unfold importState generateMasterState
    dsimp only
    rw [if_neg (by decide : ¬ (Mode.life = Mode.off))]
    rw [genAgents_length]
    norm_num [cfgW]
  rw [List.getD_eq_getElem _ _ hl]
  exact h _ (List.getElem_mem hl)

/-- C2 counterexample: the accumulator of one sweep point is fed `300`
times, not `SWEEP_MEASURE_TICKS = 250` as claimed: the loop runs ticks
`0..649` and accumulates every tick `t ≥ 350`, and `650 - 350 = 300`. -/
theorem C2_counterexample :
    (runSweepPoint (fun _ => statsZero) (fun _ => statsZero) (fun _ => statsZero)).n
      ≠ SWEEP_MEASURE_TICKS := by
  have h := (sweepLoop_spec (fun _ => statsZero) (fun _ => statsZero)
    (fun _ => statsZero) (List.range SWEEP_TOTAL_TICKS) resetAcc).1
  unfold runSweepPoint
  rw [h]
  rw [show ((List.range SWEEP_TOTAL_TICKS).filter
      (fun t => decide (SWEEP_BURN_IN ≤ t))) = measuredTicks from rfl]
  rw [measuredTicks_length]
  decide

/-- C2 amended: each sweep point runs exactly `SWEEP_TOTAL_TICKS = 650`
update ticks, discards the first `SWEEP_BURN_IN = 350` as burn-in, and
feeds the accumulator on exactly the `300` remaining ticks (not the
declared `SWEEP_MEASURE_TICKS = 250`); the accumulator count `n = 300` is
then the divisor of every average. -/
theorem C2_sweep_window (f g h : ℕ → EngineStepStats) (pt : ℚ × ℚ) :
    (runSweepPoint f g h).n = 300 ∧
    (runSweepPoint f g h).sumLife
      = (measuredTicks.map (fun t => (h t).deltaHeat)).sum ∧
    (runSweepPoint f g h).sumOff
      = (measuredTicks.map (fun t => (f t).deltaHeat)).sum ∧
    (finalizeOneSweepPoint pt (runSweepPoint f g h)).avg_delta_life
      = (runSweepPoint f g h).sumLife / 300 ∧
    (finalizeOneSweepPoint pt (runSweepPoint f g h)).avg_delta_off
      = (runSweepPoint f g h).sumOff / 300 := by
  obtain ⟨h1, h2, h3, h4⟩ := sweepLoop_spec f g h (List.range SWEEP_TOTAL_TICKS) resetAcc
  have hfm : ((List.range SWEEP_TOTAL_TICKS).filter
      (fun t => decide (SWEEP_BURN_IN ≤ t))) = measuredTicks := rfl
  have hn : (runSweepPoint f g h).n = 300 := by
    unfold runSweepPoint
    rw [h1, hfm, measuredTicks_length]
    rfl
  have hsumL : (runSweepPoint f g h).sumLife
      = (measuredTicks.map (fun t => (h t).deltaHeat)).sum := by
    unfold runSweepPoint
    rw [h3, hfm]
    show (0:ℚ) + _ = _
    rw [zero_add]
  have hsumO : (runSweepPoint f g h).sumOff
      = (measuredTicks.map (fun t => (f t).deltaHeat)).sum := by
    unfold runSweepPoint
    rw [h2, hfm]
    show (0:ℚ) + _ = _
    rw [zero_add]
  refine ⟨hn, hsumL, hsumO, ?_, ?_⟩
  · unfold finalizeOneSweepPoint
    dsimp only
    rw [hn]
    rw [if_neg (by norm_num : ¬ (300 = 0))]
    norm_num
  · unfold finalizeOneSweepPoint
    dsimp only
    rw [hn]
    rw [if_neg (by norm_num : ¬ (300 = 0))]
    norm_num

/-- C3 counterexample: the diffusion scan does not have full Gauss–Seidel
semantics as claimed — on the 2×2 grid `[0, 10, 0, 0]` with speed `1` and
cap `1`, the engine's scan (gradient from the pre-scan snapshot) produces
`([9/4, 5, 0, 9/4], 1/2)` while the claimed read-everything-from-the-
working-buffer scan produces `([27/16, 45/8, 4941/6400, 891/640],
3349/6400)`. -/
theorem C3_counterexample :
    applyStrictDiffusion 1 1 gridCE ≠ applyDiffusionGS 1 1 gridCE := by
  rw [eval_strict_cap1, eval_gs_cap1]
  simp only [ne_eq, Prod.mk.injEq, not_and]
  intro _
  norm_num

/-- C3 amended: the gradient delta — which selects source/receiver and
sizes the flow — is read from the pre-scan snapshot (`diffPairStep`
depends on the snapshot only through its values at the two paired cells,
unchanged by earlier updates of the same scan), while the source's
available energy is read from the in-scan working buffer (the scan is not
snapshot/Jacobi either: with cap `1/5` on `[0, 10, 0, 0]` the engine
yields `([9/5, 32/5, 0, 36/25], 9/25)`, the Jacobi variant
`([9/5, 6, 0, 9/5], 2/5)`). -/
theorem C3_snapshot_delta (speed cap : ℚ) (old old2 : List ℚ) (st : List ℚ × ℚ)
    (ij : ℕ × ℕ)
    (h1 : old.getD ij.1 0 = old2.getD ij.1 0)
    (h2 : old.getD ij.2 0 = old2.getD ij.2 0) :
    diffPairStep speed cap old st ij = diffPairStep speed cap old2 st ij ∧
    applyStrictDiffusion 1 (1/5) gridCE ≠ applyDiffusionJacobi 1 (1/5) gridCE := by
  constructor
  · unfold diffPairStep
    rw [h1, h2]
  · rw [eval_strict_cap5, eval_jacobi_cap5]
    simp only [ne_eq, Prod.mk.injEq, not_and]
    intro _
    norm_num

theorem C3_snapshot_delta_witness :
    diffPairStep 1 1 [1, 2] ([5, 5], 0) (0, 1)
      = diffPairStep 1 1 [1, 2, 99] ([5, 5], 0) (0, 1) ∧
    applyStrictDiffusion 1 (1/5) gridCE ≠ applyDiffusionJacobi 1 (1/5) gridCE :=
  C3_snapshot_delta 1 1 [1, 2] [1, 2, 99] ([5, 5], 0) (0, 1) rfl rfl

/-- C4 counterexample: on a uniform (all-ties) grid the agent heading
north does not keep its previous heading — the selected heading is the
angle-0 (east) direction, because every sample beats the `-1` sentinel
that initialises the running maximum. -/
theorem C4_counterexample :
    chemotaxisHeading uniformGrid 8 agentNorth = (⟨1, 0⟩, ⟨0, 0⟩) ∧
    ((⟨1, 0⟩, ⟨0, 0⟩) : Q2 × Q2) ≠ (agentNorth.vx, agentNorth.vy) := by
  constructor
  · obtain ⟨i, hh, _, hfirst⟩ := chemotaxis_argmax uniformGrid 8 agentNorth
      (by
        intro v hv
        have h := List.eq_of_mem_replicate
          (show v ∈ List.replicate 64 (1:ℚ) by simpa [uniformGrid] using hv)
        rw [h]
        norm_num)
    have hi0 : i = 0 := by
      by_contra hne
      have hpos : (0:ℕ) < (i : ℕ) := Nat.pos_of_ne_zero (fun h => hne (Fin.ext h))
      have hlt := hfirst 0 hpos
      rw [sampleIdx_agentNorth 0, sampleIdx_agentNorth i] at hlt
      exact lt_irrefl _ hlt
    rw [hi0] at hh
    exact hh
  · intro h
    rw [Prod.mk.injEq] at h
    have h1 := h.1
    rw [show agentNorth.vx = (⟨0, 0⟩ : Q2) from rfl, Q2.mk.injEq] at h1
    norm_num at h1

/-- C4 amended: for every agent on a non-negative grid, the grid energy
is sampled at the 8 evenly-spaced headings at radius 2 and the heading
whose sample is the first maximum wins: the winner's sample is maximal
and every earlier sample is strictly smaller.  On ties the agent does not
keep its previous heading — the comparison starts from the `-1` sentinel,
so some sampled direction (the lowest-index maximiser, angle 0 first)
always replaces the initial candidate. -/
theorem C4_first_argmax (g : List ℚ) (N : ℕ) (a : Agent)
    (hnn : ∀ v ∈ g, 0 ≤ v) :
    ∃ i : Fin 8,
      chemotaxisHeading g N a = (cos8 i, sin8 i) ∧
      (∀ j : Fin 8, gridGet g (sampleIdx N a j) ≤ gridGet g (sampleIdx N a i)) ∧
      (∀ j : Fin 8, (j : ℕ) < (i : ℕ) →
        gridGet g (sampleIdx N a j) < gridGet g (sampleIdx N a i)) :=
  chemotaxis_argmax g N a hnn

theorem C4_first_argmax_witness :
    ∃ i : Fin 8,
      chemotaxisHeading uniformGrid 8 agentNorth = (cos8 i, sin8 i) ∧
      (∀ j : Fin 8, gridGet uniformGrid (sampleIdx 8 agentNorth j)
        ≤ gridGet uniformGrid (sampleIdx 8 agentNorth i)) ∧
      (∀ j : Fin 8, (j : ℕ) < (i : ℕ) →
        gridGet uniformGrid (sampleIdx 8 agentNorth j)
          < gridGet uniformGrid (sampleIdx 8 agentNorth i)) :=
  C4_first_argmax uniformGrid 8 agentNorth (by
    intro v hv
    have h := List.eq_of_mem_replicate
      (show v ∈ List.replicate 64 (1:ℚ) by simpa [uniformGrid] using hv)
    rw [h]
    norm_num)

/-- C5: the death/reproduction phase, applied in population order after
all movement: the survivors are exactly the agents with energy `≥ 1/5`
(in original relative order, halved when energy `> 10`), the newborns are
exactly the clones (same position and heading, halved energy) of the
agents with energy `> 10` (in creation order); a dying agent's entire
remaining energy is added to the grid cell at its floored position
(conservation: grid sum plus survivor and newborn energies equals the
pre-phase total, so nothing is counted as heat), and the final population
of `updateLife` is the survivors followed by the newborns. -/
theorem C5_death_reproduction (config : UserConfig) (s : EngineState) (N : ℕ)
    (l : List Agent) (g : List ℚ) (a : Agent) (rest : List Agent)
    (hb : ∀ b ∈ l, b.energy < 1/5 →
      0 ≤ agentCell N b ∧ (agentCell N b).toNat < g.length)
    (ha : a.energy < 1/5) :
    (lifePhase2 N l g).2.1
      = (l.filter (fun b => decide ((1:ℚ)/5 ≤ b.energy))).map
          (fun b => if 10 < b.energy then { b with energy := b.energy * (1/2) } else b) ∧
    (lifePhase2 N l g).2.2
      = (l.filter (fun b => decide ((10:ℚ) < b.energy))).map
          (fun b => { b with energy := b.energy * (1/2) }) ∧
    (lifePhase2 N l g).1.sum
        + (((lifePhase2 N l g).2.1).map Agent.energy).sum
        + (((lifePhase2 N l g).2.2).map Agent.energy).sum
      = g.sum + (l.map Agent.energy).sum ∧
    lifePhase2 N (a :: rest) g
      = lifePhase2 N rest (gridSet g (agentCell N a) (gridGet g (agentCell N a) + a.energy)) ∧
    (updateLife config s).agents
      = (lifePhase2 (Nat.sqrt s.grid.length)
          (mapAccum (lifeAgentStep config (Nat.sqrt s.grid.length))
            (s.grid, s.stepHeatAct) s.agents).2
          (mapAccum (lifeAgentStep config (Nat.sqrt s.grid.length))
            (s.grid, s.stepHeatAct) s.agents).1.1).2.1
        ++ (lifePhase2 (Nat.sqrt s.grid.length)
          (mapAccum (lifeAgentStep config (Nat.sqrt s.grid.length))
            (s.grid, s.stepHeatAct) s.agents).2
          (mapAccum (lifeAgentStep config (Nat.sqrt s.grid.length))
            (s.grid, s.stepHeatAct) s.agents).1.1).2.2 := by
  refine ⟨(lifePhase2_pop N l g).1, (lifePhase2_pop N l g).2,
    lifePhase2_sum N l g hb, ?_, rfl⟩
  conv_lhs => simp only [lifePhase2]
  rw [if_pos ha]

theorem C5_death_reproduction_witness :
    (lifePhase2 2 [agentDying, agentBreeder] gridW).2.1
      = ([agentDying, agentBreeder].filter (fun b => decide ((1:ℚ)/5 ≤ b.energy))).map
          (fun b => if 10 < b.energy then { b with energy := b.energy * (1/2) } else b) ∧
    (lifePhase2 2 [agentDying, agentBreeder] gridW).2.2
      = ([agentDying, agentBreeder].filter (fun b => decide ((10:ℚ) < b.energy))).map
          (fun b => { b with energy := b.energy * (1/2) }) ∧
    (lifePhase2 2 [agentDying, agentBreeder] gridW).1.sum
        + (((lifePhase2 2 [agentDying, agentBreeder] gridW).2.1).map Agent.energy).sum
        + (((lifePhase2 2 [agentDying, agentBreeder] gridW).2.2).map Agent.energy).sum
      = gridW.sum + ([agentDying, agentBreeder].map Agent.energy).sum ∧
    lifePhase2 2 (agentDying :: []) gridW
      = lifePhase2 2 [] (gridSet gridW (agentCell 2 agentDying)
          (gridGet gridW (agentCell 2 agentDying) + agentDying.energy)) ∧
    (updateLife cfgW stateW).agents
      = (lifePhase2 (Nat.sqrt stateW.grid.length)
          (mapAccum (lifeAgentStep cfgW (Nat.sqrt stateW.grid.length))
            (stateW.grid, stateW.stepHeatAct) stateW.agents).2
          (mapAccum (lifeAgentStep cfgW (Nat.sqrt stateW.grid.length))
            (stateW.grid, stateW.stepHeatAct) stateW.agents).1.1).2.1
        ++ (lifePhase2 (Nat.sqrt stateW.grid.length)
          (mapAccum (lifeAgentStep cfgW (Nat.sqrt stateW.grid.length))
            (stateW.grid, stateW.stepHeatAct) stateW.agents).2
          (mapAccum (lifeAgentStep cfgW (Nat.sqrt stateW.grid.length))
            (stateW.grid, stateW.stepHeatAct) stateW.agents).1.1).2.2 := by
  have hcell : agentCell 2 agentDying = 0 := by
    unfold agentCell agentDying
    dsimp only
    simp only [floor_half]
    norm_num
  exact C5_death_reproduction cfgW stateW 2 [agentDying, agentBreeder] gridW agentDying []
    (by
      intro b hb hlt
      rcases List.mem_cons.mp hb with rfl | hb2
      · rw [hcell]
        norm_num [gridW]
      · rcases List.mem_cons.mp hb2 with rfl | hb3
        · norm_num [agentBreeder] at hlt
        · cases hb3)
    (by norm_num [agentDying])

end MyLifeSim
